import Mathlib

/-!
Verification development for the gdb-memviz memory visualizer.

The Rust sources under `src/` are shallowly embedded here: strings are
lists of characters (`Str`), the handful of regular expressions used by
the MI record parser are embedded as deterministic leftmost-match
scanners equivalent to the Rust `regex` crate semantics on the restricted
patterns the code uses, and the stateful session/walker code is embedded
as pure functions over an explicit oracle describing the behaviour of the
child debugger process (every I/O interaction is a lookup in the oracle).
Machine integers (`u64`, `usize`, `u8`, `u32`) are embedded as `Nat` with
explicit range checks exactly where the Rust code performs checked or
fallible conversions.
-/

namespace Memviz

/-- Rust `&str`/`String` values are embedded as lists of characters. -/
abbrev Str := List Char

/-- Rust `char::is_whitespace` restricted to the ASCII whitespace
characters (all inputs handled by the program are ASCII MI text). -/
def isWs (c : Char) : Bool :=
  c = ' ' || c = '\t' || c = '\n' || c = '\r' || c = '\x0b' || c = '\x0c'

/-- ASCII decimal digit test (Rust `char::is_ascii_digit`). -/
def isDigitCh (c : Char) : Bool :=
  '0' ≤ c && c ≤ '9'

/-- ASCII hex digit test (Rust `char::is_ascii_hexdigit`). -/
def isHexCh (c : Char) : Bool :=
  isDigitCh c || ('a' ≤ c && c ≤ 'f') || ('A' ≤ c && c ≤ 'F')

/-- Numeric value of a decimal digit character. -/
def digitVal (c : Char) : Nat := c.toNat - 48

/-- Numeric value of a hex digit character (upper or lower case). -/
def hexVal (c : Char) : Nat :=
  if isDigitCh c then c.toNat - 48
  else if 'a' ≤ c && c ≤ 'f' then c.toNat - 87
  else c.toNat - 55

/-- `List.isPrefixOf` re-stated as a plain boolean recursion, used by the
embedded regex scanners to test a literal at the current position. -/
def isPre : Str → Str → Bool
  | [], _ => true
  | _ :: _, [] => false
  | a :: as, b :: bs => if a = b then isPre as bs else false

/-- Substring containment (Rust `str::contains` with a literal pattern). -/
def containsSub (key : Str) : Str → Bool
  | [] => isPre key []
  | c :: rest => isPre key (c :: rest) || containsSub key rest

/-- Rust `str::trim_start` (ASCII-whitespace restriction, see `isWs`). -/
def trimStart (s : Str) : Str := s.dropWhile (fun c => isWs c)

/-- Rust `str::trim_end`. -/
def trimEnd (s : Str) : Str := (s.reverse.dropWhile (fun c => isWs c)).reverse

/-- Rust `str::trim`. -/
def trimStr (s : Str) : Str := trimEnd (trimStart s)

/-- Rust `str::trim_end_matches(c)`: drop every trailing occurrence of `c`. -/
def trimEndMatches (c : Char) (s : Str) : Str :=
  (s.reverse.dropWhile (fun x => x = c)).reverse

/-- Rust `str::trim_matches(c)`: drop leading and trailing occurrences. -/
def trimMatches (c : Char) (s : Str) : Str :=
  trimEndMatches c (s.dropWhile (fun x => x = c))

/-- Accumulator-based worker for `splitWs` (the accumulator holds the
current token reversed). -/
def splitWsAux : Str → Str → List Str
  | [], acc => if acc = [] then [] else [acc.reverse]
  | c :: rest, acc =>
      if isWs c then
        if acc = [] then splitWsAux rest [] else acc.reverse :: splitWsAux rest []
      else splitWsAux rest (c :: acc)

/-- Rust `str::split_whitespace`: maximal runs of non-whitespace. -/
def splitWs (s : Str) : List Str := splitWsAux s []

/-- Accumulator-based worker for `splitCh`. -/
def splitChAux (sep : Char) : Str → Str → List Str
  | [], acc => [acc.reverse]
  | c :: rest, acc =>
      if c = sep then acc.reverse :: splitChAux sep rest [] else splitChAux sep rest (c :: acc)

/-- Rust `str::split(sep)`: splits on every separator, keeping empty pieces. -/
def splitCh (sep : Char) (s : Str) : List Str := splitChAux sep s []

/-- Fuel-based worker for decimal rendering; fuel `n+1` always suffices. -/
def natToDecAux : Nat → Nat → Str
  | 0, _ => []
  | _fuel + 1, n =>
      if n < 10 then [Char.ofNat (48 + n)]
      else natToDecAux _fuel (n / 10) ++ [Char.ofNat (48 + n % 10)]

/-- Decimal rendering of a `Nat` (Rust `format!` with `{}`). -/
def natToDec (n : Nat) : Str := natToDecAux (n + 1) n

/-- Hex digit character, lowercase (used by Rust `{:x}` formatting). -/
def hexDigitCh (n : Nat) : Char :=
  if n < 10 then Char.ofNat (48 + n) else Char.ofNat (87 + n)

/-- Fuel-based worker for lowercase hex rendering. -/
def natToHexAux : Nat → Nat → Str
  | 0, _ => []
  | _fuel + 1, n =>
      if n < 16 then [hexDigitCh n]
      else natToHexAux _fuel (n / 16) ++ [hexDigitCh (n % 16)]

/-- Lowercase hex rendering of a `Nat` (Rust `format!` with `{:x}`). -/
def natToHex (n : Nat) : Str := natToHexAux (n + 1) n

/-- Rust `char::to_ascii_lowercase`. -/
def toLowerCh (c : Char) : Char :=
  if 'A' ≤ c && c ≤ 'Z' then Char.ofNat (c.toNat + 32) else c

/-- Rust `str::to_ascii_lowercase`. -/
def toLowerStr (s : Str) : Str := s.map toLowerCh

/-- `u64::MAX`. -/
def u64Max : Nat := 18446744073709551615

/-- Value of a list of decimal digit characters (most significant first). -/
def decDigitsVal (s : Str) : Nat := s.foldl (fun acc c => 10 * acc + digitVal c) 0

/-- Value of a list of hex digit characters (most significant first). -/
def hexDigitsVal (s : Str) : Nat := s.foldl (fun acc c => 16 * acc + hexVal c) 0

/-- Rust `usize::from_str` / `str::parse::<usize>`: an optional leading
`+`, then one or more decimal digits; overflow past `usize::MAX`
(64-bit) is an error. -/
def parseUsizeRust (s : Str) : Option Nat :=
  let t := match s with
    | '+' :: rest => rest
    | other => other
  if t = [] then none
  else if t.all (fun c => isDigitCh c) then
    let v := decDigitsVal t
    if v ≤ u64Max then some v else none
  else none

/-- Rust `u64::from_str_radix(s, 16)`: optional leading `+`, one or more
hex digits, overflow is an error. -/
def parseHexU64Rust (s : Str) : Option Nat :=
  let t := match s with
    | '+' :: rest => rest
    | other => other
  if t = [] then none
  else if t.all (fun c => isHexCh c) then
    let v := hexDigitsVal t
    if v ≤ u64Max then some v else none
  else none

/-- Rust `u8::from_str_radix(s, 16)`. -/
def parseHexU8Rust (s : Str) : Option Nat :=
  let t := match s with
    | '+' :: rest => rest
    | other => other
  if t = [] then none
  else if t.all (fun c => isHexCh c) then
    let v := hexDigitsVal t
    if v ≤ 255 then some v else none
  else none

/-! ## `src/mi/models.rs`: basic data model -/

/-- `Endian` from `src/mi/models.rs`. -/
inductive Endian where
  | little
  | big
  | unknown
deriving DecidableEq, Repr

/-- `MiStatus` from `src/mi/models.rs`. -/
inductive MiStatus where
  | done
  | running
  | error (msg : Str)
  | other (text : Str)
deriving DecidableEq, Repr

/-- `LocalVar` from `src/mi/models.rs`. -/
structure LocalVar where
  name : Str
  ty : Option Str
  value : Option Str
deriving DecidableEq, Repr

/-- `StoppedLocation` from `src/mi/models.rs`. -/
structure StoppedLocation where
  func : Option Str
  file : Option Str
  fullname : Option Str
  line : Option Nat
  reason : Option Str
  arch : Option Str
deriving DecidableEq, Repr

/-- `MemoryDump` from `src/mi/models.rs`. -/
structure MemoryDump where
  expr : Str
  ty : Option Str
  address : Str
  bytes : List Nat
  word_size : Nat
  requested : Nat
  endian : Endian
  arch : Option Str
  truncated_from : Option Nat
deriving DecidableEq, Repr

/-! ## `src/mi/parser.rs`: the MI record parser

The Rust code builds its field extractors from a handful of restricted
regular expressions.  Each is a literal key such as `msg="` followed by
one capture group; the embeddings below implement the exact
leftmost-match semantics of the `regex` crate on those patterns:
`scanKey` tries the literal at every position from the left and, where
the capture fails, resumes scanning at the next position, which is what
the regex engine does. -/

/-- Capture for `([^"]+)"`: the maximal run of non-quote characters,
which must be non-empty and followed by a closing quote. -/
def plainCap (s : Str) : Option Str :=
  let cap := s.takeWhile (fun c => ¬ c = '"')
  let rest := s.dropWhile (fun c => ¬ c = '"')
  if cap = [] then none
  else if rest = [] then none
  else some cap

/-- Capture for `((?:\\.|[^"])*)"` with the alternation preference and
backtracking of the regex engine: a backslash pairs with any following
non-newline character (so an escaped quote does not close the capture);
if pairing the backslash leaves no closing quote, the engine falls back
to consuming the backslash alone via `[^"]`. -/
def escCap : Str → Option Str
  | [] => none
  | '"' :: _ => some []
  | '\\' :: c :: rest =>
      if c = '\n' then
        (escCap (c :: rest)).map (fun cap => '\\' :: cap)
      else
        match escCap rest with
        | some cap => some ('\\' :: c :: cap)
        | none => (escCap (c :: rest)).map (fun cap => '\\' :: cap)
  | c :: rest => (escCap rest).map (fun cap => c :: cap)

/-- Capture for `([0-9a-fA-F]+)"`. -/
def hexQCap (s : Str) : Option Str :=
  let cap := s.takeWhile (fun c => isHexCh c)
  let rest := s.dropWhile (fun c => isHexCh c)
  if cap = [] then none
  else if isPre ['"'] rest then some cap
  else none

/-- Capture for `([^\]]+)\]`. -/
def bracketCap (s : Str) : Option Str :=
  let cap := s.takeWhile (fun c => ¬ c = ']')
  let rest := s.dropWhile (fun c => ¬ c = ']')
  if cap = [] then none
  else if rest = [] then none
  else some cap

/-- Capture for `([0-9]+)"`. -/
def digitsQCap (s : Str) : Option Str :=
  let cap := s.takeWhile (fun c => isDigitCh c)
  let rest := s.dropWhile (fun c => isDigitCh c)
  if cap = [] then none
  else if isPre ['"'] rest then some cap
  else none

/-- Leftmost-match scan: try the literal `key` at every position; on a
hit run the capture `cap` on the remainder, else (or if the capture
fails) continue one position to the right. -/
def scanKey {α : Type} (cap : Str → Option α) (key : Str) : Str → Option α
  | [] => none
  | c :: rest =>
      if isPre key (c :: rest) then
        match cap (List.drop key.length (c :: rest)) with
        | some v => some v
        | none => scanKey cap key rest
      else scanKey cap key rest

/-- `unescape_value` from `src/mi/parser.rs`.  The Rust loop treats
`\\`, `\"`, `\n`, `\t` as escapes, keeps `\0` followed by a run of
zeros verbatim, and passes everything else through.  The dedicated
inner while-loop that copies a zero run is unrolled here: once `\0` has
been emitted verbatim the following zeros are ordinary characters to
the main loop, so copying them one at a time is the identical function. -/
def unescape_value : Str → Str
  | [] => []
  | '\\' :: '\\' :: t => '\\' :: unescape_value t
  | '\\' :: '"' :: t => '"' :: unescape_value t
  | '\\' :: 'n' :: t => '\n' :: unescape_value t
  | '\\' :: 't' :: t => '\t' :: unescape_value t
  | '\\' :: '0' :: t => '\\' :: '0' :: unescape_value t
  | c :: rest => c :: unescape_value rest

/-- `mi_escape` from `src/mi/parser.rs`. -/
def mi_escape (expr : Str) : Str :=
  '"' :: (expr.flatMap (fun ch =>
    if ch = '\\' then ['\\', '\\']
    else if ch = '"' then ['\\', '"']
    else if ch = '\n' then ['\\', 'n']
    else if ch = '\t' then ['\\', 't']
    else [ch])) ++ ['"']

/-- The literal key `msg="`. -/
def msgKey : Str := ("msg=\"").toList

/-- The literal key `value="`. -/
def valueKey : Str := ("value=\"").toList

/-- The literal key `type="`. -/
def typeKey : Str := ("type=\"").toList

/-- The literal key `addr="`. -/
def addrKey : Str := ("addr=\"").toList

/-- The literal key `name="`. -/
def nameKey : Str := ("name=\"").toList

/-- `parse_msg_field`: regex `msg="([^"]+)"` (no escape handling). -/
def parse_msg_field (s : Str) : Option Str := scanKey plainCap msgKey s

/-- `parse_value_field`: regex `value="((?:\\.|[^"])*)"` then unescape. -/
def parse_value_field (s : Str) : Option Str :=
  (scanKey escCap valueKey s).map unescape_value

/-- `parse_type_field`: regex `type="((?:\\.|[^"])*)"` then unescape. -/
def parse_type_field (s : Str) : Option Str :=
  (scanKey escCap typeKey s).map unescape_value

/-- `parse_addr_field`: regex `addr="([^"]+)"` (no escape handling). -/
def parse_addr_field (s : Str) : Option Str := scanKey plainCap addrKey s

/-- `parse_var_name`: regex `name="([^"]+)"`. -/
def parse_var_name (s : Str) : Option Str := scanKey plainCap nameKey s

/-- `parse_status` from `src/mi/parser.rs`. -/
def parse_status (line : Str) : MiStatus :=
  if isPre (("^done").toList) line then .done
  else if isPre (("^running").toList) line then .running
  else if isPre (("^error").toList) line then
    .error ((parse_msg_field line).getD line)
  else .other line

/-- `parse_hex_byte` from `src/mi/parser.rs`: trim whitespace, trim
quote characters, strip an optional `0x` prefix, parse base 16. -/
def parse_hex_byte (raw : Str) : Option Nat :=
  let trimmed := trimMatches '"' (trimStr raw)
  if trimmed = [] then none
  else
    let num := if isPre (("0x").toList) trimmed then trimmed.drop 2 else trimmed
    parseHexU8Rust num

/-- `hex_str_to_bytes` from `src/mi/parser.rs`: continuous hex, decoded
two characters at a time; an odd length is an error. -/
def hex_str_to_bytes (s : Str) : Except Str (List Nat) :=
  if s.length % 2 ≠ 0 then .error (("odd-length hex string in memory contents").toList)
  else hexPairsToBytes s
where
  /-- Decode successive two-character slices with `u8::from_str_radix`. -/
  hexPairsToBytes : Str → Except Str (List Nat)
    | [] => .ok []
    | [_] => .error (("invalid hex byte in memory contents").toList)
    | c1 :: c2 :: rest =>
        match parseHexU8Rust [c1, c2] with
        | none => .error (("invalid hex byte in memory contents").toList)
        | some b =>
            match hexPairsToBytes rest with
            | .error e => .error e
            | .ok bs => .ok (b :: bs)

/-- `split_hex_bytes` from `src/mi/parser.rs`. -/
def split_hex_bytes (s : Str) : List Nat :=
  (splitWs s).filterMap parse_hex_byte

/-- `parse_hex_list` from `src/mi/parser.rs` (always succeeds; bad
pieces are skipped). -/
def parse_hex_list (list : Str) : Except Str (List Nat) :=
  .ok ((splitCh ',' list).filterMap parse_hex_byte)

/-- The literal key `bytes="`. -/
def bytesKey : Str := ("bytes=\"").toList

/-- The literal key `contents="`. -/
def contentsQKey : Str := ("contents=\"").toList

/-- The literal key `contents=[`. -/
def contentsBrKey : Str := ("contents=[").toList

/-- The literal key `data=[`. -/
def dataBrKey : Str := ("data=[").toList

/-- `parse_memory_contents` from `src/mi/parser.rs`: the four wire
shapes tried in order, exactly as the Rust code does. -/
def parse_memory_contents (s : Str) : Except Str (List Nat) :=
  match scanKey hexQCap bytesKey s with
  | some h => hex_str_to_bytes h
  | none =>
    match scanKey plainCap contentsQKey s with
    | some hex =>
        if hex.contains ' ' then .ok (split_hex_bytes hex)
        else hex_str_to_bytes hex
    | none =>
      match scanKey bracketCap contentsBrKey s with
      | some list => parse_hex_list list
      | none =>
        match scanKey bracketCap dataBrKey s with
        | some list => parse_hex_list list
        | none => .error (("no memory contents found").toList)

/-- `parse_usize` from `src/mi/parser.rs`: trim, then base 16 with a
`0x` prefix, else base 10. -/
def parse_usize (s : Str) : Except Str Nat :=
  let trimmed := trimStr s
  if isPre (("0x").toList) trimmed then
    match parseHexU64Rust (trimmed.drop 2) with
    | some v => .ok v
    | none => .error (("parse hex usize").toList)
  else
    match parseUsizeRust trimmed with
    | some v => .ok v
    | none => .error (("parse usize").toList)

/-- `u64::from_le_bytes`. -/
def u64_from_le_bytes (buf : List Nat) : Nat :=
  buf.foldr (fun b acc => b + 256 * acc) 0

/-- `u64::from_be_bytes`. -/
def u64_from_be_bytes (buf : List Nat) : Nat :=
  buf.foldl (fun acc b => 256 * acc + b) 0

/-- `bytes_to_u64` from `src/mi/parser.rs`: copy up to 8 bytes into a
zeroed 8-byte buffer (at the top for big endian, at the bottom
otherwise) and reinterpret. -/
def bytes_to_u64 (bytes : List Nat) (endian : Endian) : Nat :=
  let len := min bytes.length 8
  match endian with
  | .big => u64_from_be_bytes (List.replicate (8 - len) 0 ++ bytes.take len)
  | _ => u64_from_le_bytes (bytes.take len ++ List.replicate (8 - len) 0)

/-- `parse_endian` from `src/mi/parser.rs`. -/
def parse_endian (val : Str) : Endian :=
  let lower := toLowerStr val
  if containsSub (("little").toList) lower then .little
  else if containsSub (("big").toList) lower then .big
  else .unknown

/-- `guess_endian_from_arch` from `src/mi/parser.rs`. -/
def guess_endian_from_arch (arch : Str) : Option Endian :=
  let a := toLowerStr arch
  if containsSub (("x86").toList) a || containsSub (("amd64").toList) a
      || containsSub (("i386").toList) a then some .little
  else if containsSub (("aarch64").toList) a || containsSub (("arm").toList) a then
    some .little
  else if containsSub (("riscv").toList) a then some .little
  else none

/-- Capture a `u32` field value (regex `([0-9]+)"` then
`str::parse::<u32>`, which fails above `u32::MAX`). -/
def u32QCap (s : Str) : Option Str := digitsQCap s

/-- `parse_stopped` from `src/mi/parser.rs`. -/
def parse_stopped (line : Str) : StoppedLocation :=
  { reason := scanKey plainCap (("reason=\"").toList) line
    func := scanKey plainCap (("func=\"").toList) line
    file := scanKey plainCap (("file=\"").toList) line
    fullname := scanKey plainCap (("fullname=\"").toList) line
    line := (scanKey u32QCap (("line=\"").toList) line).bind (fun ds =>
      let v := decDigitsVal ds
      if v < 4294967296 then some v else none)
    arch := scanKey plainCap (("arch=\"").toList) line }

/-! ## `src/types.rs`: the type-layout parser -/

/-- `FieldLayout` from `src/types.rs`. -/
structure FieldLayout where
  name : Str
  type_name : Str
  offset : Nat
  size : Nat
deriving DecidableEq, Repr

/-- `TypeLayout` from `src/types.rs`. -/
inductive TypeLayout where
  | Scalar (type_name : Str) (size : Nat)
  | Array (type_name : Str) (elem_type : Str) (elem_size : Nat) (len : Nat) (size : Nat)
  | Struct (name : Str) (size : Nat) (fields : List FieldLayout)
deriving DecidableEq, Repr

/-- Rust `str::lines`: split on newlines; a final trailing newline does
not produce an empty last line; a trailing carriage return is dropped. -/
def linesOf (s : Str) : List Str :=
  let ls := splitCh '\n' s
  let ls := if s = [] then [] else if ls.getLast? = some [] then ls.dropLast else ls
  ls.map (fun l => if l.getLast? = some '\r' then l.dropLast else l)

/-- `base_type_size` from `src/types.rs`. -/
def base_type_size (type_name : Str) (word_size : Nat) : Nat :=
  let t := trimStr type_name
  if t.getLast? = some '*' then max word_size 1
  else if t = ("char").toList || t = ("unsigned char").toList
      || t = ("signed char").toList then 1
  else if t = ("short").toList || t = ("unsigned short").toList then 2
  else if t = ("int").toList || t = ("unsigned int").toList then 4
  else if t = ("long").toList || t = ("unsigned long").toList
      || t = ("long int").toList || t = ("unsigned long int").toList then max word_size 4
  else if t = ("long long").toList || t = ("unsigned long long").toList then 8
  else if t = ("float").toList then 4
  else if t = ("double").toList then 8
  else max word_size 1

/-- Worker for `parse_array_line`: try each line in order, looking for
`type = <elem> [N]`. -/
def arrayLineLoop (word_size : Nat) : List Str → Option TypeLayout
  | [] => none
  | line :: rest =>
      let t := trimStr line
      if isPre (("type =").toList) t then
        let parts := splitWs (trimStr (t.drop 6))
        match parts with
        | ty :: second :: _ =>
            if isPre ['['] second && second.getLast? = some ']' then
              let lenStr := (second.drop 1).dropLast
              match parseUsizeRust lenStr with
              | some len =>
                  let elemSize := base_type_size ty word_size
                  some (.Array (ty ++ (" [").toList ++ natToDec len ++ (("]").toList))
                    ty elemSize len (elemSize * len))
              | none => arrayLineLoop word_size rest
            else arrayLineLoop word_size rest
        | _ => arrayLineLoop word_size rest
      else arrayLineLoop word_size rest

/-- `parse_array_line` from `src/types.rs`. -/
def parse_array_line (text : Str) (word_size : Nat) : Option TypeLayout :=
  arrayLineLoop word_size (linesOf text)

/-- Word character test for the struct-name capture `[A-Za-z0-9_]`. -/
def isWordCh (c : Char) : Bool :=
  isDigitCh c || ('a' ≤ c && c ≤ 'z') || ('A' ≤ c && c ≤ 'Z') || c = '_'

/-- Capture for the remainder of `type\s*=\s*struct\s+([A-Za-z0-9_]+)`
after the literal `type`. -/
def structNameCap (s : Str) : Option Str :=
  let s1 := s.dropWhile (fun c => isWs c)
  match s1 with
  | '=' :: s2 =>
      let s3 := s2.dropWhile (fun c => isWs c)
      if isPre (("struct").toList) s3 then
        let s4 := s3.drop 6
        if (s4.takeWhile (fun c => isWs c)) = [] then none
        else
          let cap := (s4.dropWhile (fun c => isWs c)).takeWhile (fun c => isWordCh c)
          if cap = [] then none else some cap
      else none
  | _ => none

/-- The struct-name regex `type\s*=\s*struct\s+([A-Za-z0-9_]+)` as a
leftmost-match scan. -/
def structNameFind (s : Str) : Option Str := scanKey structNameCap (("type").toList) s

/-- Capture for the remainder of the member-annotation regex
`/\*\s*([0-9]+)(?::[0-9]+)?\s*\|\s*([0-9]+)\s*\*/` after the literal
`/*`; returns the two captured digit strings. -/
def offAnnCap (s : Str) : Option (Str × Str) :=
  let s1 := s.dropWhile (fun c => isWs c)
  let d1 := s1.takeWhile (fun c => isDigitCh c)
  if d1 = [] then none
  else
    let s2 := s1.dropWhile (fun c => isDigitCh c)
    let s3 := match s2 with
      | ':' :: rest => if (rest.takeWhile (fun c => isDigitCh c)) = [] then s2
          else rest.dropWhile (fun c => isDigitCh c)
      | _ => s2
    match s3.dropWhile (fun c => isWs c) with
    | '|' :: s5 =>
        let s6 := s5.dropWhile (fun c => isWs c)
        let d2 := s6.takeWhile (fun c => isDigitCh c)
        if d2 = [] then none
        else
          let s7 := (s6.dropWhile (fun c => isDigitCh c)).dropWhile (fun c => isWs c)
          if isPre (("*/").toList) s7 then some (d1, d2) else none
    | _ => none

/-- Rust `str::split_once("*/")`: split at the first occurrence. -/
def splitOnceStarSlash : Str → Option (Str × Str)
  | [] => none
  | c :: rest =>
      if isPre (("*/").toList) (c :: rest) then some ([], (c :: rest).drop 2)
      else (splitOnceStarSlash rest).map (fun p => (c :: p.1, p.2))

/-- Rust `str::rsplit_once(' ')`: split at the last space. -/
def rsplitOnceSp (s : Str) : Option (Str × Str) :=
  let r := s.reverse
  let after := r.takeWhile (fun c => ¬ c = ' ')
  let rest := r.dropWhile (fun c => ¬ c = ' ')
  match rest with
  | [] => none
  | _ :: before => some (before.reverse, after.reverse)

/-- Find the header line containing `type = struct` (the Rust code uses
`lines.find(..)`, which also consumes the header from the iterator);
returns the header together with the remaining lines. -/
def findStructHeader : List Str → Option (Str × List Str)
  | [] => none
  | l :: rest =>
      if containsSub (("type = struct").toList) l then some (l, rest)
      else findStructHeader rest

/-- Build one `FieldLayout` from the text after the annotation`*/` of a
member line, given the parsed offset and size; `none` mirrors every
`continue` branch of the Rust loop body (the line yields no field). -/
def structMemberField (restPart : Str) (off sz : Nat) : Option FieldLayout :=
  let cleaned := trimStr (trimEndMatches ';' (trimStr restPart))
  if cleaned = [] then none
  else
    match rsplitOnceSp cleaned with
    | none => none
    | some (typePart, namePart) =>
        let ftype0 := trimStr typePart
        let fname0 := trimStr namePart
        let stars := (fname0.takeWhile (fun c => c = '*')).length
        let fname1 := fname0.dropWhile (fun c => c = '*')
        let ftype1 := ftype0 ++ (List.replicate stars ([' ', '*'])).flatten
        if fname1.contains ':' then none
        else
          let base := fname1.takeWhile (fun c => ¬ c = '[')
          if base.length < fname1.length then
            let lenStr := trimEndMatches ']' (fname1.drop (base.length + 1))
            match parseUsizeRust lenStr with
            | some len =>
                some { name := base, type_name := ftype1 ++ ("[").toList ++ natToDec len ++ (("]").toList),
                       offset := off, size := sz }
            | none => some { name := fname1, type_name := ftype1, offset := off, size := sz }
          else some { name := fname1, type_name := ftype1, offset := off, size := sz }

/-- The member loop of `parse_struct_block`: walks the lines after the
header accumulating fields and the optional `total size` footer.  The
outer `none` mirrors the `?` abort when a matched annotation fails to
parse as `usize`. -/
def structFieldsLoop : List Str → List FieldLayout → Option Nat →
    Option (List FieldLayout × Option Nat)
  | [], fields, total => some (fields, total)
  | line :: rest, fields, total =>
      let t := trimStr line
      if isPre (("\x7d").toList) t then some (fields, total)
      else if containsSub (("total size").toList) t then
        let tok := ((splitWs t).reverse).find? (fun w => w.all (fun c => isDigitCh c))
        match tok.bind parseUsizeRust with
        | some sz => structFieldsLoop rest fields (some sz)
        | none => structFieldsLoop rest fields total
      else if ¬ isPre (("/*").toList) t then structFieldsLoop rest fields total
      else if containsSub (("XXX").toList) t then structFieldsLoop rest fields total
      else
        match scanKey offAnnCap (("/*").toList) t with
        | none => structFieldsLoop rest fields total
        | some (d1, d2) =>
            match parseUsizeRust d1, parseUsizeRust d2 with
            | some off, some sz =>
                match splitOnceStarSlash t with
                | none => structFieldsLoop rest fields total
                | some (_, restPart) =>
                    match structMemberField restPart off sz with
                    | none => structFieldsLoop rest fields total
                    | some f => structFieldsLoop rest (fields ++ [f]) total
            | _, _ => none

/-- `parse_struct_block` from `src/types.rs`. -/
def parse_struct_block (text : Str) : Option TypeLayout :=
  match findStructHeader (linesOf text) with
  | none => none
  | some (header, rest) =>
      let name := (structNameFind header).getD (("struct").toList)
      match structFieldsLoop rest [] none with
      | none => none
      | some (fields, total) =>
          if fields = [] then none
          else
            let size := match total with
              | some t => t
              | none => match fields.getLast? with
                | some f => f.offset + f.size
                | none => 0
            some (.Struct name size fields)

/-- The scalar fallback of `parse_ptype_output`: the first line whose
trimmed start begins with `type =`, with the remainder trimmed. -/
def scalarTypeName : List Str → Str
  | [] => ("unknown").toList
  | l :: rest =>
      let t := trimStart l
      if isPre (("type =").toList) t then trimStr (t.drop 6)
      else scalarTypeName rest

/-- `parse_ptype_output` from `src/types.rs`: array form, then struct
form, then scalar fallback. -/
def parse_ptype_output (text : Str) (word_size fallback_size : Nat) : TypeLayout :=
  match parse_array_line text word_size with
  | some l => l
  | none =>
    match parse_struct_block text with
    | some l => l
    | none => .Scalar (scalarTypeName (linesOf text)) fallback_size

/-- The space-dropping core of `normalize_type_name`: a space whose next
character is `[` is skipped. -/
def normCore : Str → Str
  | [] => []
  | ' ' :: rest => if rest.head? = some '[' then normCore rest else ' ' :: normCore rest
  | c :: rest => c :: normCore rest

/-- `normalize_type_name` from `src/types.rs`. -/
def normalize_type_name (s : Str) : Str := normCore (trimStr s)

/-- `is_pointer_type` from `src/types.rs`. -/
def is_pointer_type (ty : Str) : Bool :=
  let t := trimStr ty
  t.contains '*' && ¬ t.contains '[' && ¬ t.contains ']'

/-- `strip_pointer_suffix` from `src/types.rs`: trim, drop trailing
stars, trim again. -/
def strip_pointer_suffix (ty : Str) : Str :=
  trimStr (trimEndMatches '*' (trimStr ty))

/-- Rust `str::replace(" *", "*")` specialised to its fixed two-character
pattern (leftmost, non-overlapping). -/
def replaceSpaceStar : Str → Str
  | ' ' :: '*' :: rest => '*' :: replaceSpaceStar rest
  | c :: rest => c :: replaceSpaceStar rest
  | [] => []

/-- `normalize_pointer_type` from `src/types.rs`. -/
def normalize_pointer_type (ty : Str) : Str :=
  replaceSpaceStar (normalize_type_name ty)

/-- Worker for `find_pointer_field`: prefer a pointer field named
`next`, else remember the first pointer field. -/
def findPtrAux : List FieldLayout → Option FieldLayout → Option FieldLayout
  | [], first => first
  | f :: rest, first =>
      if is_pointer_type f.type_name then
        if f.name = ("next").toList then some f
        else match first with
          | none => findPtrAux rest (some f)
          | some _ => findPtrAux rest first
      else findPtrAux rest first

/-- `find_pointer_field` from `src/types.rs`. -/
def find_pointer_field : TypeLayout → Option FieldLayout
  | .Struct _ _ fields => findPtrAux fields none
  | _ => none

/-! ## `src/vm.rs`: VM-region classification -/

/-- `VmLabel` from `src/vm.rs`. -/
inductive VmLabel where
  | Text
  | Data
  | Heap
  | Stack
  | Lib
  | Anonymous
  | Other (path : Str)
deriving DecidableEq, Repr

/-- `classify_region_label` from `src/vm.rs`: the ordered rule table,
applied to the trimmed pathname. -/
def classify_region_label (perms pathname : Str) : VmLabel :=
  let path := trimStr pathname
  if path = ("[heap]").toList then .Heap
  else if path = ("[stack]").toList then .Stack
  else if path = [] then .Anonymous
  else if containsSub (("lib").toList) path || containsSub ((".so").toList) path then .Lib
  else if isPre (("r-x").toList) perms then .Text
  else if isPre (("rw-").toList) perms then .Data
  else .Other path

/-- The classification table exactly as the specification words it
(§4.4): rules applied to the permission string and pathname in order,
with no mention of trimming. -/
def specRegionLabel (perms pathname : Str) : VmLabel :=
  if pathname = ("[heap]").toList then .Heap
  else if pathname = ("[stack]").toList then .Stack
  else if pathname = [] then .Anonymous
  else if containsSub (("lib").toList) pathname || containsSub ((".so").toList) pathname then .Lib
  else if isPre (("r-x").toList) perms then .Text
  else if isPre (("rw-").toList) perms then .Data
  else .Other pathname

/-! ## `src/mi/session.rs`: the MI session

The session owns the child debugger process; every interaction passes
through `exec_command`, which sends one command line and receives one
`MiResponse` (a result record plus out-of-band lines).  The child is
embedded as an oracle mapping the command text to the response, with
`none` for a transport failure.  The cached target facts mutated by the
session are the explicit `SessionSt` record. -/

/-- `MiResponse` from `src/mi/models.rs`. -/
structure MiResponse where
  status : MiStatus
  result : Str
  oob : List Str
deriving DecidableEq, Repr

/-- The child debugger as an oracle: for each command line, either a
transport failure (`none`) or the raw result record and out-of-band
lines the blocking read delivers. -/
structure MiOracle where
  exec : Str → Option (Str × List Str)

/-- The cached target facts of `MiSession` (`word_size`, `word_known`,
`endian`, `arch`). -/
structure SessionSt where
  word_size : Nat
  word_known : Bool
  endian : Endian
  arch : Option Str
deriving DecidableEq, Repr

/-- `exec_command` composed with `read_response`: the status is parsed
from the result record exactly as `read_response` does. -/
def exec_command (o : MiOracle) (cmd : Str) : Option MiResponse :=
  (o.exec cmd).map (fun p => { status := parse_status p.1, result := p.1, oob := p.2 })

/-- The command text `-data-evaluate-expression <mi_escape expr>`. -/
def dataEvalCmd (expr : Str) : Str :=
  ("-data-evaluate-expression ").toList ++ mi_escape expr

/-- `evaluate_sizeof` from `src/mi/session.rs` (error collapsed to
`none`). -/
def evaluate_sizeof (o : MiOracle) (expr : Str) : Option Nat :=
  match exec_command o (dataEvalCmd ((("sizeof(").toList) ++ expr ++ ((")").toList))) with
  | none => none
  | some resp =>
      match resp.status with
      | .error _ => none
      | _ =>
          match parse_value_field resp.result with
          | none => none
          | some raw =>
              match parse_usize raw with
              | .ok v => some v
              | .error _ => none

/-- `ensure_word_size` from `src/mi/session.rs`. -/
def ensure_word_size (o : MiOracle) (st : SessionSt) : SessionSt :=
  if st.word_known then st
  else
    match evaluate_sizeof o (("void*").toList) with
    | some sz =>
        if 0 < sz then { st with word_size := sz, word_known := true }
        else { st with word_size := 8, word_known := true }
    | none => { st with word_size := 8, word_known := true }

/-- `ensure_endian` from `src/mi/session.rs`: query `-gdb-show endian`,
fall back to the architecture hint, fall back to little. -/
def ensure_endian (o : MiOracle) (st : SessionSt) : SessionSt :=
  if ¬ st.endian = .unknown then st
  else
    let fallback : SessionSt :=
      match st.arch with
      | some arch =>
          match guess_endian_from_arch arch with
          | some g => { st with endian := g }
          | none => { st with endian := .little }
      | none => { st with endian := .little }
    match exec_command o (("-gdb-show endian").toList) with
    | some r =>
        match parse_value_field r.result with
        | some val =>
            let parsed := parse_endian val
            if ¬ parsed = .unknown then { st with endian := parsed } else fallback
        | none => fallback
    | none => fallback

/-- `parse_address_str` from `src/mi/session.rs`. -/
def parse_address_str (s : Str) : Option Nat :=
  let trimmed := trimStr s
  if isPre (("0x").toList) trimmed then parseHexU64Rust (trimmed.drop 2)
  else
    match findSub0x trimmed with
    | some rest =>
        let hexPart := rest.takeWhile (fun c => isHexCh c)
        if ¬ hexPart = [] then parseHexU64Rust hexPart
        else
          match find0xHexRun trimmed with
          | some run => parseHexU64Rust run
          | none => none
    | none =>
        match find0xHexRun trimmed with
        | some run => parseHexU64Rust run
        | none => none
where
  /-- Rust `str::find("0x")`: the remainder after the first occurrence. -/
  findSub0x : Str → Option Str
    | [] => none
    | '0' :: 'x' :: rest => some rest
    | _ :: rest => findSub0x rest
  /-- The regex `0x[0-9a-fA-F]+`: first occurrence of `0x` followed by at
  least one hex digit; the maximal digit run is captured. -/
  find0xHexRun : Str → Option Str
    | [] => none
    | '0' :: 'x' :: rest =>
        let run := rest.takeWhile (fun c => isHexCh c)
        if run = [] then find0xHexRun ('x' :: rest) else some run
    | _ :: rest => find0xHexRun rest

/-- `eval_expr_u64` from `src/mi/session.rs`: scrape an address or
number from the value field, then from its first whitespace token, then
from the whole result record, then parse the value as `usize`. -/
def eval_expr_u64 (o : MiOracle) (expr : Str) : Option Nat :=
  match exec_command o (dataEvalCmd expr) with
  | none => none
  | some resp =>
      match resp.status with
      | .error _ => none
      | _ =>
          match parse_value_field resp.result with
          | none => none
          | some raw =>
              match parse_address_str raw with
              | some addr => some addr
              | none =>
                  let fromFirst : Option Nat :=
                    match (splitWs raw).head? with
                    | some first =>
                        match parse_address_str first with
                        | some addr => some addr
                        | none =>
                            match parse_usize first with
                            | .ok v => some v
                            | .error _ => none
                    | none => none
                  match fromFirst with
                  | some v => some v
                  | none =>
                      match parse_address_str resp.result with
                      | some addr => some addr
                      | none =>
                          match parse_usize raw with
                          | .ok v => some v
                          | .error _ => none

/-- `eval_address_of_expr` from `src/mi/session.rs`. -/
def eval_address_of_expr (o : MiOracle) (expr : Str) : Option Nat :=
  eval_expr_u64 o ((("&(").toList) ++ expr ++ ((")").toList))

/-- `fetch_type` from `src/mi/session.rs`: a `-var-create`/`-var-delete`
probe for the type name. -/
def fetch_type (o : MiOracle) (expr : Str) : Option Str :=
  match exec_command o ((("-var-create - * ").toList) ++ expr) with
  | none => none
  | some resp =>
      match resp.status with
      | .error _ => none
      | _ =>
          match parse_var_name resp.result with
          | none => none
          | some _ => parse_type_field resp.result

/-- `read_memory_bytes` from `src/mi/session.rs`: issue
`-data-read-memory-bytes`, join the result record and out-of-band lines,
extract the reported address and the byte payload. -/
def read_memory_bytes (o : MiOracle) (address : Str) (bytes : Nat) :
    Option (Str × List Nat) :=
  match exec_command o ((("-data-read-memory-bytes ").toList) ++ address
      ++ ([' ']) ++ natToDec bytes) with
  | none => none
  | some resp =>
      match resp.status with
      | .error _ => none
      | _ =>
          let raw := resp.result ++ ([' ']) ++ (joinSp resp.oob)
          let addr := (parse_addr_field raw).getD address
          match parse_memory_contents raw with
          | .ok data => some (addr, data)
          | .error _ => none
where
  /-- Rust `Vec::join(" ")`. -/
  joinSp : List Str → Str
    | [] => []
    | [l] => l
    | l :: rest => l ++ ([' ']) ++ joinSp rest

/-- `MAX_DUMP_BYTES` from `src/mi/session.rs`. -/
def MAX_DUMP_BYTES : Nat := 512

/-- The requested-length fixing of `memory_dump`: the override, else
`sizeof(expr)`, else 32; zero becomes 32; capped at `MAX_DUMP_BYTES`
with the original length recorded as the first component
(`truncated_from`). -/
def dumpRequest (o : MiOracle) (expr : Str) (override_len : Option Nat) :
    Option Nat × Nat :=
  let requested0 :=
    match override_len with
    | some len => len
    | none => (evaluate_sizeof o expr).getD 32
  let requested1 := if requested0 = 0 then 32 else requested0
  if MAX_DUMP_BYTES < requested1 then (some requested1, MAX_DUMP_BYTES)
  else (none, requested1)

/-- `memory_dump` from `src/mi/session.rs`: resolve word size and
endian, take the address of the expression, fix the requested length
(see `dumpRequest`), read the bytes, re-resolve a still-unknown endian
from the architecture hint, and build the dump. -/
def memory_dump (o : MiOracle) (st : SessionSt) (expr : Str)
    (override_len : Option Nat) : SessionSt × Option MemoryDump :=
  let st1 := ensure_word_size o st
  let st2 := ensure_endian o st1
  match eval_address_of_expr o expr with
  | none => (st2, none)
  | some addrU64 =>
      let addrStr := (("0x").toList) ++ natToHex addrU64
      let capped := dumpRequest o expr override_len
      match read_memory_bytes o addrStr capped.2 with
      | none => (st2, none)
      | some (addr, bytes) =>
          let st3 :=
            if st2.endian = .unknown then
              match st2.arch with
              | some arch =>
                  match guess_endian_from_arch arch with
                  | some e => { st2 with endian := e }
                  | none => { st2 with endian := .little }
              | none => { st2 with endian := .little }
            else st2
          (st3, some { expr := expr, ty := fetch_type o expr, address := addr,
                       bytes := bytes, word_size := st3.word_size,
                       requested := capped.2, endian := st3.endian,
                       arch := st3.arch, truncated_from := capped.1 })

/-- `read_pointer_at` from `src/mi/session.rs` (state threading elided:
the claim-relevant output is the endian-corrected integer). -/
def read_pointer_at (o : MiOracle) (st : SessionSt) (address : Nat)
    (size_override : Option Nat) : Option Nat :=
  let st1 := ensure_word_size o st
  let st2 := ensure_endian o st1
  let size := max (size_override.getD st2.word_size) 1
  match read_memory_bytes o ((("0x").toList) ++ natToHex address) size with
  | none => none
  | some (_, bytes) => some (bytes_to_u64 bytes st2.endian)

/-- Outcome of a stop-wait loop. -/
inductive WaitRes where
  | ok (loc : StoppedLocation)
  | okUnit
  | err
deriving DecidableEq, Repr

/-- `wait_for_stop` from `src/mi/session.rs`: the raw line loop, over
the list of lines the child will deliver (`[]` models end-of-file).
`sawStop` is the loop flag. -/
def wait_for_stop : List Str → SessionSt → Bool → SessionSt × WaitRes
  | [], st, _ => (st, .err)
  | line :: rest, st, sawStop =>
      let t := trimStr line
      if t = [] then wait_for_stop rest st sawStop
      else if t = ("(gdb)").toList then
        if sawStop then (st, .okUnit) else wait_for_stop rest st sawStop
      else if isPre (("*stopped").toList) t then
        let loc := parse_stopped t
        let st1 := if st.arch = none then { st with arch := loc.arch } else st
        wait_for_stop rest st1 true
      else if isPre (("^error").toList) t then (st, .err)
      else wait_for_stop rest st sawStop

/-- `wait_for_stop_capture` from `src/mi/session.rs`: like
`wait_for_stop` but remembering the parsed location. -/
def wait_for_stop_capture : List Str → SessionSt → Option StoppedLocation →
    SessionSt × WaitRes
  | [], st, _ => (st, .err)
  | line :: rest, st, stop =>
      let t := trimStr line
      if t = [] then wait_for_stop_capture rest st stop
      else if t = ("(gdb)").toList then
        match stop with
        | some loc => (st, .ok loc)
        | none => wait_for_stop_capture rest st stop
      else if isPre (("*stopped").toList) t then
        let loc := parse_stopped t
        let st1 := if st.arch = none then { st with arch := loc.arch } else st
        wait_for_stop_capture rest st1 (some loc)
      else if isPre (("^error").toList) t then (st, .err)
      else wait_for_stop_capture rest st stop

/-! ## `src/interactive/follow.rs`: the pointer-chain walker

The walker composes public session operations (`list_locals`,
`evaluate_expression`, `fetch_layout_for_type`, `read_pointer_at`); each
is a blocking debugger interaction, embedded as one component of the
oracle below so that the claims quantify over every behaviour of the
child debugger. -/

/-- The session operations used by `handle_follow`, as an oracle. -/
structure FollowOracle where
  listLocals : Option (List LocalVar)
  evalExpr : Str → Option Str
  fetchLayoutForType : Str → Option TypeLayout
  readPtrAt : Nat → Nat → Option Nat

/-- `parse_pointer_address` from `src/interactive/follow.rs`: first
`0x…` hex substring, decimal fallback when the hex attempt fails. -/
def parse_pointer_address (value : Str) : Option Nat :=
  let hexAttempt :=
    match parse_address_str.find0xHexRun value with
    | some run => parseHexU64Rust run
    | none => none
  match hexAttempt with
  | some v => some v
  | none =>
      let trimmed := trimStr value
      if ¬ trimmed = [] && trimmed.all (fun c => isDigitCh c) then parseUsizeRust trimmed
      else none

/-- Why the walk loop stopped. -/
inductive StopReason where
  | null
  | overflow
  | readErr
  | hopLimit
deriving DecidableEq, Repr

/-- The observable outcome of `handle_follow` (each constructor is one
of the early-return messages of the Rust function; `walked` records the
chosen link field, the number of loop iterations executed, the address
current when the loop ended, and why it ended). -/
inductive FollowOutcome where
  | usage
  | depthNotPositive
  | badDepth (raw : Str)
  | localsFailed
  | symbolNotFound
  | typeUnavailable
  | notPointer
  | emptyPointee
  | valueUnavailable
  | parseValueFailed
  | initialNull
  | layoutUnavailable
  | noLinkField
  | walked (link : FieldLayout) (iters : Nat) (addr : Nat) (reason : StopReason)
deriving DecidableEq, Repr

/-- The display expression `* (<pointee> *) (0x<addr>)` evaluated each
hop purely for its printed string. -/
def derefExpr (pointeeType : Str) (addr : Nat) : Str :=
  (("* (").toList) ++ pointeeType ++ ((" *) (0x").toList) ++ natToHex addr ++ ((")").toList)

/-- The `for i in 0..depth` loop of `handle_follow`: per iteration,
break on a NULL address, evaluate the pointee for display, break when
the checked 64-bit add of the link offset overflows, break when the
sized read of the link field fails, else follow the link.  Returns the
number of iterations entered, the address current at loop end, and the
stop reason. -/
def followLoop (o : FollowOracle) (pointeeType : Str) (link : FieldLayout) :
    Nat → Nat → Nat × Nat × StopReason
  | 0, addr => (0, addr, .hopLimit)
  | fuel + 1, addr =>
      if addr = 0 then (1, addr, .null)
      else
        let _ := o.evalExpr (derefExpr pointeeType addr)
        if u64Max < addr + link.offset then (1, addr, .overflow)
        else
          match o.readPtrAt (addr + link.offset) link.size with
          | none => (1, addr, .readErr)
          | some next =>
              let r := followLoop o pointeeType link fuel next
              (r.1 + 1, r.2.1, r.2.2)

/-- The body of `handle_follow` once the symbol and a positive depth are
in hand. -/
def followWithDepth (o : FollowOracle) (symbol : Str) (depth : Nat) : FollowOutcome :=
  match o.listLocals with
  | none => .localsFailed
  | some locals =>
      match locals.find? (fun v => v.name = symbol) with
      | none => .symbolNotFound
      | some var =>
          match var.ty with
          | none => .typeUnavailable
          | some ty0 =>
              let ty := trimStr ty0
              if ¬ is_pointer_type ty then .notPointer
              else
                let pointee := strip_pointer_suffix ty
                if pointee = [] then .emptyPointee
                else
                  let valueText :=
                    match var.value with
                    | some v => some v
                    | none => o.evalExpr symbol
                  match valueText with
                  | none => .valueUnavailable
                  | some rawValue =>
                      let addrOpt :=
                        match parse_pointer_address rawValue with
                        | some a => some a
                        | none => (o.evalExpr symbol).bind parse_pointer_address
                      match addrOpt with
                      | none => .parseValueFailed
                      | some addr =>
                          if addr = 0 then .initialNull
                          else
                            match o.fetchLayoutForType pointee with
                            | some (.Struct sname ssz sfields) =>
                                match find_pointer_field (.Struct sname ssz sfields) with
                                | none => .noLinkField
                                | some link =>
                                    let r := followLoop o pointee link depth addr
                                    .walked link r.1 r.2.1 r.2.2
                            | some _ => .layoutUnavailable
                            | none => .layoutUnavailable

/-- `handle_follow` from `src/interactive/follow.rs`: argument parsing
(symbol, then an optional depth that must parse and be positive, with
default 8), then the walk. -/
def handle_follow (args : Str) (o : FollowOracle) : FollowOutcome :=
  match splitWs args with
  | [] => .usage
  | symbol :: restParts =>
      match restParts.head? with
      | some raw =>
          match parseUsizeRust raw with
          | some v => if 0 < v then followWithDepth o symbol v else .depthNotPositive
          | none => .badDepth raw
      | none => followWithDepth o symbol 8

/-- The hop limit `handle_follow` resolves from its argument string:
`none` when rejected (no symbol, or an unparseable depth), `some d`
otherwise (`d = 8` when no depth is supplied).  Mirrors the argument
handling of the source for use in theorem statements. -/
def followDepth (args : Str) : Option Nat :=
  match splitWs args with
  | [] => none
  | _ :: restParts =>
      match restParts.head? with
      | some raw => parseUsizeRust raw
      | none => some 8

/-! ## Specification-side definitions

The following definitions transcribe wording of the specification (not
the source); they exist to be compared against the embedded code. -/

/-- Little-endian base-256 value of a byte list (the spec's notion in
§8.4). -/
def leBase256 : List Nat → Nat
  | [] => 0
  | b :: rest => b + 256 * leBase256 rest

/-- Big-endian base-256 value of a byte list (most significant byte
first). -/
def beBase256 : List Nat → Nat
  | [] => 0
  | b :: rest => b * 256 ^ rest.length + beBase256 rest

/-- The claimed Struct invariants of C3 as a boolean checker: offsets
non-decreasing, and no field end past the total size (which also makes
the total at least the maximum field end). -/
def offsetsMonoB : List FieldLayout → Bool
  | [] => true
  | [_] => true
  | f :: g :: rest => decide (f.offset ≤ g.offset) && offsetsMonoB (g :: rest)

/-- Boolean checker for the C3 claim on a parsed layout. -/
def structInvHolds : TypeLayout → Bool
  | .Struct _ sz fields =>
      offsetsMonoB fields && fields.all (fun f => decide (f.offset + f.size ≤ sz))
  | _ => true

/-- Whether a layout is a Struct. -/
def isStructB : TypeLayout → Bool
  | .Struct _ _ _ => true
  | _ => false

/-- No space immediately followed by `[` anywhere in the string: the
inputs on which the display normalizer is idempotent. -/
def noSpBr : Str → Bool
  | ' ' :: '[' :: _ => false
  | _ :: rest => noSpBr rest
  | [] => true

/-- Claim-side renderer: the two lowercase hex digits of a byte. -/
def hexByteChars (b : Nat) : Str := [hexDigitCh (b / 16), hexDigitCh (b % 16)]

/-- Claim-side renderer: continuous hex for a byte vector. -/
def hexRender (bs : List Nat) : Str := (bs.map hexByteChars).flatten

/-- Join with single spaces (for the space-separated hex wire shape). -/
def sepSpace : List Str → Str
  | [] => []
  | [x] => x
  | x :: xs => x ++ ' ' :: sepSpace xs

/-- Join with commas (for the bracketed list wire shapes). -/
def sepComma : List Str → Str
  | [] => []
  | [x] => x
  | x :: xs => x ++ ',' :: sepComma xs

/-- One quoted `"0xNN"` item of the bracketed list wire shapes. -/
def quotedHexItem (b : Nat) : Str := '"' :: '0' :: 'x' :: hexByteChars b ++ ['"']

/-- The comma-separated quoted items of the bracketed list shapes. -/
def commaItems (bs : List Nat) : Str := sepComma (bs.map quotedHexItem)

/-- The sixteen lowercase hex digit characters. -/
def hexAlphabet : Str := ("0123456789abcdef").toList

/-- All characters that can occur in a `commaItems` rendering. -/
def itemAlphabet : Str := ("\"0x,").toList ++ hexAlphabet

/-- A fresh session state (nothing cached yet). -/
def c1St : SessionSt :=
  { word_size := 8, word_known := false, endian := .unknown, arch := none }

/-- A debugger behaviour that answers a 4-byte read request with five
bytes of payload. -/
def c1BadOracle : MiOracle where
  exec := fun cmd =>
    if cmd = dataEvalCmd (("sizeof(void*)").toList) then
      some ((("^done,value=\"8\"").toList), [])
    else if cmd = ("-gdb-show endian").toList then
      some ((("^done,value=\"little\"").toList), [])
    else if cmd = dataEvalCmd (("&(p)").toList) then
      some ((("^done,value=\"0x1000\"").toList), [])
    else if cmd = (("-data-read-memory-bytes 0x1000 4").toList) then
      some ((("^done,memory=[\x7baddr=\"0x1000\",bytes=\"aabbccddee\"\x7d]").toList), [])
    else none

/-- A debugger behaviour whose replies to every sized read carry an
empty byte payload (hence never more than requested). -/
def c1GoodOracle : MiOracle where
  exec := fun cmd =>
    if isPre (("-data-read-memory-bytes ").toList) cmd then
      some ((("^done,addr=\"0x1000\",contents=[ ]").toList), [])
    else if cmd = dataEvalCmd (("sizeof(void*)").toList) then
      some ((("^done,value=\"8\"").toList), [])
    else if cmd = ("-gdb-show endian").toList then
      some ((("^done,value=\"little\"").toList), [])
    else if cmd = dataEvalCmd (("&(p)").toList) then
      some ((("^done,value=\"0x1000\"").toList), [])
    else if cmd = dataEvalCmd (("sizeof(p)").toList) then
      some ((("^done,value=\"4\"").toList), [])
    else none

/-- The session state after a `memory_dump` on `c1GoodOracle`. -/
def c1GoodSt : SessionSt :=
  { word_size := 8, word_known := true, endian := .little, arch := none }

/-- The dump `memory_dump` produces on `c1GoodOracle` for `p`. -/
def c1GoodDump : MemoryDump :=
  { expr := ("p").toList, ty := none, address := ("0x1000").toList, bytes := [],
    word_size := 8, requested := 4, endian := .little, arch := none,
    truncated_from := none }

/-- A concrete stop-event line for exercising the stop-wait loops. -/
def c9Line : Str := ("*stopped,reason=\"breakpoint-hit\",arch=\"i386:x86-64\"").toList

/-- A concrete line feed ending with a prompt. -/
def c9Lines : List Str := [c9Line, ("(gdb)").toList]

/-- A session state with every target fact already cached. -/
def c9St : SessionSt :=
  { word_size := 8, word_known := true, endian := .little, arch := some (("aarch64").toList) }

/-- Well-formedness of a quoted-field body with respect to the escape
grammar of §4.1: every backslash is paired with a following character
(never a newline) and every quote character is so escaped. -/
def escWf : Str → Bool
  | [] => true
  | c :: rest =>
      if c = '"' then false
      else if c = '\\' then
        match rest with
        | [] => false
        | d :: rest2 => if d = '\n' then false else escWf rest2
      else escWf rest

/-- An MI error record whose `msg` field contains escaped quotes. -/
def c4Record : Str := ("^error,msg=\"say \\\"hi\\\" now\"").toList

/-- What `parse_msg_field` actually returns on `c4Record`: the text cut
at the escaped quote. -/
def c4Cap : Str := ("say \\").toList

/-- The full `msg` body of `c4Record` under the §4.1 grammar. -/
def c4Full : Str := ("say \\\"hi\\\" now").toList

/-- A syntactically valid `ptype /o` text whose member annotations are
out of order: the second member is annotated at offset 0 although the
first sits at offset 8. -/
def c3Text : Str :=
  ("type = struct S \x7b\n/* 8 | 4 */ int b;\n/* 0 | 4 */ int a;\n\x7d").toList

/-- The well-formed `ptype /o` text of the spec's `struct Node`
scenario (§8, scenario 3). -/
def nodeText : Str :=
  ("/* offset      |    size */  type = struct Node \x7b\n/*      0      |       4 */    int id;\n/*      4      |       4 */    int count;\n/*      8      |      16 */    char name[16];\n/*     24      |       8 */    struct Node * next;\n                              /* total size (bytes):   32 */\n                            \x7d").toList

/-- The fields `parse_ptype_output` extracts from `nodeText`. -/
def nodeFields : List FieldLayout :=
  [{ name := ("id").toList, type_name := ("int").toList, offset := 0, size := 4 },
   { name := ("count").toList, type_name := ("int").toList, offset := 4, size := 4 },
   { name := ("name").toList, type_name := ("char[16]").toList, offset := 8, size := 16 },
   { name := ("next").toList, type_name := ("struct Node *").toList, offset := 24, size := 8 }]

/-- The link field of the concrete walking scenario below. -/
def c2Link : FieldLayout :=
  { name := ("next").toList, type_name := ("struct Node *").toList, offset := 24, size := 8 }

/-- A concrete pointee layout with a `next` pointer field. -/
def c2Layout : TypeLayout :=
  .Struct (("Node").toList) 32
    [{ name := ("id").toList, type_name := ("int").toList, offset := 0, size := 4 }, c2Link]

/-- A concrete debugger behaviour: one local `p : struct Node *` valued
`0x10`, the Node layout above, and every link-field read returning 0. -/
def c2Oracle : FollowOracle where
  listLocals :=
    some [{ name := ("p").toList
            ty := some (("struct Node *").toList)
            value := some (("0x10").toList) }]
  evalExpr := fun _ => some (("val").toList)
  fetchLayoutForType := fun t => if t = ("struct Node").toList then some c2Layout else none
  readPtrAt := fun _ _ => some 0

/-- What C9 claims of a stop-wait loop run over `lines` taking the
cached facts from `st` to `st'`: word size, word-known flag and endian
are untouched; an already-cached architecture is never changed; and an
unset architecture is either still unset or set to the `arch` field of
one of the stop-event lines encountered. -/
def stopWaitInv (lines : List Str) (st st' : SessionSt) : Prop :=
  st'.word_size = st.word_size ∧ st'.word_known = st.word_known
  ∧ st'.endian = st.endian
  ∧ (∀ a, st.arch = some a → st'.arch = some a)
  ∧ (st.arch = none → st'.arch = none
      ∨ ∃ l ∈ lines, st'.arch = (parse_stopped (trimStr l)).arch)

/-! ## Helper lemmas -/

theorem isPre_append (key rest : Str) : isPre key (key ++ rest) = true := by
  induction key with
  | nil => rfl
  | cons a as ih => simp [isPre, ih]

theorem isPre_mem {key t : Str} (h : isPre key t = true) : ∀ c ∈ key, c ∈ t := by
  induction key generalizing t with
  | nil => simp
  | cons a as ih =>
      cases t with
      | nil => simp [isPre] at h
      | cons b bs =>
          by_cases hab : a = b
          · subst hab
            simp only [isPre, if_pos rfl] at h
            intro c hc
            rcases List.mem_cons.mp hc with h1 | h2
            · exact h1 ▸ List.mem_cons_self _ _
            · exact List.mem_cons_of_mem _ (ih h c h2)
          · simp [isPre, hab] at h

theorem takeWhile_append_all {p : Char → Bool} {xs : Str} (hx : ∀ c ∈ xs, p c = true)
    {y : Char} (hy : p y = false) (ys : Str) :
    (xs ++ y :: ys).takeWhile p = xs := by
  induction xs with
  | nil => simp [List.takeWhile, hy]
  | cons a as ih =>
      have ha : p a = true := hx a (List.mem_cons_self _ _)
      simp only [List.cons_append, List.takeWhile_cons, ha, if_true]
      rw [ih (fun c hc => hx c (List.mem_cons_of_mem _ hc))]

theorem dropWhile_append_all {p : Char → Bool} {xs : Str} (hx : ∀ c ∈ xs, p c = true)
    {y : Char} (hy : p y = false) (ys : Str) :
    (xs ++ y :: ys).dropWhile p = y :: ys := by
  induction xs with
  | nil => simp [List.dropWhile, hy]
  | cons a as ih =>
      have ha : p a = true := hx a (List.mem_cons_self _ _)
      simp only [List.cons_append, List.dropWhile_cons, ha, if_true]
      exact ih (fun c hc => hx c (List.mem_cons_of_mem _ hc))

theorem head_dropWhile_false {p : Char → Bool} {l : Str} {c : Char}
    (h : (l.dropWhile p).head? = some c) : p c = false := by
  induction l with
  | nil => simp at h
  | cons a as ih =>
      by_cases ha : p a
      · rw [List.dropWhile_cons, if_pos ha] at h
        exact ih h
      · rw [List.dropWhile_cons, if_neg ha] at h
        simp at h
        exact h ▸ (Bool.not_eq_true _).mp ha

theorem dropWhile_eq_self_of_head {p : Char → Bool} {l : Str}
    (h : ∀ c, l.head? = some c → p c = false) : l.dropWhile p = l := by
  cases l with
  | nil => rfl
  | cons a as => rw [List.dropWhile_cons, if_neg]; simp [h a rfl]

theorem prefix_head {pre r t : Str} {c : Char} (he : pre ++ r = t)
    (h : pre.head? = some c) : t.head? = some c := by
  cases pre with
  | nil => simp at h
  | cons a as => simp at h; subst he; simp [h]

theorem getLast?_eq_reverse_head (s : Str) : s.getLast? = s.reverse.head? := by
  conv_lhs => rw [← s.reverse_reverse]
  exact List.getLast?_reverse s.reverse

theorem trimEnd_prefix (s : Str) : ∃ r, trimEnd s ++ r = s := by
  rcases List.dropWhile_suffix (l := s.reverse) (p := fun c => isWs c) with ⟨r, hr⟩
  refine ⟨r.reverse, ?_⟩
  have := congrArg List.reverse hr
  simpa [trimEnd] using this

theorem trimStr_head {s : Str} {c : Char} (h : (trimStr s).head? = some c) :
    isWs c = false := by
  rcases trimEnd_prefix (trimStart s) with ⟨r, hr⟩
  have : (trimStart s).head? = some c := prefix_head hr h
  exact head_dropWhile_false (p := fun c => isWs c) (by simpa [trimStart] using this)

theorem trimStr_getLast {s : Str} {c : Char} (h : (trimStr s).getLast? = some c) :
    isWs c = false := by
  rw [getLast?_eq_reverse_head] at h
  have : (trimStr s).reverse = (trimStart s).reverse.dropWhile (fun c => isWs c) := by
    simp [trimStr, trimEnd]
  rw [this] at h
  exact head_dropWhile_false h

theorem trimStr_noop {s : Str} (h1 : ∀ c, s.head? = some c → isWs c = false)
    (h2 : ∀ c, s.getLast? = some c → isWs c = false) : trimStr s = s := by
  have hstart : trimStart s = s := dropWhile_eq_self_of_head h1
  have hend : trimEnd s = s := by
    unfold trimEnd
    rw [dropWhile_eq_self_of_head, s.reverse_reverse]
    intro c hc
    exact h2 c ((getLast?_eq_reverse_head s).symm ▸ hc)
  unfold trimStr
  rw [hstart, hend]

theorem trimStr_trimStr (s : Str) : trimStr (trimStr s) = trimStr s :=
  trimStr_noop (fun _ h => trimStr_head h) (fun _ h => trimStr_getLast h)

theorem trimEndMatches_noop {c : Char} {s : Str} (h : ¬ s.getLast? = some c) :
    trimEndMatches c s = s := by
  unfold trimEndMatches
  rw [dropWhile_eq_self_of_head, s.reverse_reverse]
  intro d hd
  rw [getLast?_eq_reverse_head] at h
  by_cases hdc : d = c
  · exact absurd (hdc ▸ hd) h
  · simp [hdc]

theorem scanKey_hit {α : Type} (cap : Str → Option α) {key : Str} (hk : key ≠ [])
    {rest : Str} {v : α} (hc : cap rest = some v) :
    scanKey cap key (key ++ rest) = some v := by
  cases key with
  | nil => exact absurd rfl hk
  | cons k ks =>
      show scanKey cap (k :: ks) (k :: (ks ++ rest)) = some v
      rw [scanKey]
      rw [show k :: (ks ++ rest) = (k :: ks) ++ rest from rfl]
      rw [isPre_append, if_pos rfl, List.drop_left, hc]

theorem scanKey_none {α : Type} (cap : Str → Option α) (key : Str) {s : Str}
    (h : ∀ n, isPre key (s.drop n) = false) : scanKey cap key s = none := by
  induction s with
  | nil =>
      cases key with
      | nil => exact absurd (h 0) (by simp [isPre])
      | cons k ks => rfl
  | cons c rest ih =>
      rw [scanKey]
      have h0 := h 0
      rw [List.drop_zero] at h0
      rw [h0, if_neg (by simp)]
      exact ih (fun n => by have hn := h (n + 1); rwa [List.drop_succ_cons] at hn)

theorem scanKey_absent {α : Type} (cap : Str → Option α) {key s : Str} {c : Char}
    (hck : c ∈ key) (hcs : c ∉ s) : scanKey cap key s = none := by
  apply scanKey_none
  intro n
  by_contra hne
  have hp : isPre key (s.drop n) = true := by
    cases hb : isPre key (s.drop n) with
    | false => exact absurd hb hne
    | true => rfl
  exact hcs (List.mem_of_mem_drop (isPre_mem hp c hck))

theorem normCore_cons_of_ne {a : Char} (ha : ¬ a = ' ') (rest : Str) :
    normCore (a :: rest) = a :: normCore rest :=
  normCore.eq_3 a rest (fun h => ha h)

theorem normCore_ne_nil {t : Str} (h : t ≠ []) : normCore t ≠ [] := by
  induction t with
  | nil => exact absurd rfl h
  | cons a as ih =>
      by_cases ha : a = ' '
      · subst ha
        rw [normCore.eq_2]
        split
        · next hb =>
            cases as with
            | nil => simp at hb
            | cons b bs => exact ih (by simp)
        · simp
      · rw [normCore_cons_of_ne ha]
        simp

theorem normCore_getLast (t : Str) : (normCore t).getLast? = t.getLast? := by
  induction t with
  | nil => rfl
  | cons a as ih =>
      cases has : as with
      | nil =>
          by_cases ha : a = ' '
          · subst ha
            rw [normCore.eq_2]
            simp [normCore.eq_1]
          · rw [normCore_cons_of_ne ha, normCore.eq_1]
      | cons b bs =>
          rw [← has]
          have tail_eq : ∀ x : Char, (x :: normCore as).getLast? = (x :: as).getLast? := by
            intro x
            have hne : normCore as ≠ [] := normCore_ne_nil (has ▸ (by simp))
            cases hnc : normCore as with
            | nil => exact absurd hnc hne
            | cons y ys =>
                rw [List.getLast?_cons_cons, ← hnc, ih, has, List.getLast?_cons_cons, ← has]
          by_cases ha : a = ' '
          · subst ha
            rw [normCore.eq_2]
            split
            · next hb =>
                rw [ih, has, List.getLast?_cons_cons, ← has]
            · exact tail_eq ' '
          · rw [normCore_cons_of_ne ha]
            exact tail_eq a

theorem normCore_head {t : Str} {c : Char} (ht : t.head? = some c) (hc : ¬ c = ' ') :
    (normCore t).head? = some c := by
  cases t with
  | nil => simp at ht
  | cons a as =>
      simp at ht
      subst ht
      rw [normCore_cons_of_ne hc]
      rfl

theorem noSpBr_tail {a : Char} {as : Str} (h : noSpBr (a :: as) = true) :
    noSpBr as = true := by
  rw [noSpBr.eq_def] at h
  split at h
  · exact absurd h (by simp)
  · next c rest heq =>
      injection heq with h1 h2
      exact h2 ▸ h
  · next heq => cases heq

theorem normCore_of_noSpBr {t : Str} (h : noSpBr t = true) : normCore t = t := by
  induction t with
  | nil => rfl
  | cons a as ih =>
      by_cases ha : a = ' '
      · subst ha
        cases as with
        | nil =>
            rw [normCore.eq_2]
            simp [normCore.eq_1]
        | cons b bs =>
            by_cases hb : b = '['
            · subst hb
              rw [noSpBr.eq_def] at h
              simp at h
            · rw [normCore.eq_2, if_neg (by simp [hb])]
              rw [ih (noSpBr_tail h)]
      · rw [normCore_cons_of_ne ha, ih (noSpBr_tail h)]

theorem u64_le_append_zeros (xs : List Nat) (k : Nat) :
    u64_from_le_bytes (xs ++ List.replicate k 0) = u64_from_le_bytes xs := by
  induction xs with
  | nil =>
      show u64_from_le_bytes (List.replicate k 0) = 0
      induction k with
      | zero => rfl
      | succ n ih => simpa [u64_from_le_bytes, List.replicate_succ] using ih
  | cons b rest ih => simp [u64_from_le_bytes, List.foldr] at ih ⊢; rw [ih]

theorem u64_le_eq_leBase256 (xs : List Nat) : u64_from_le_bytes xs = leBase256 xs := by
  induction xs with
  | nil => rfl
  | cons b rest ih => simp [u64_from_le_bytes, leBase256, List.foldr] at ih ⊢; rw [ih]

theorem foldl_be_acc (xs : List Nat) (a : Nat) :
    List.foldl (fun acc b => 256 * acc + b) a xs = a * 256 ^ xs.length + beBase256 xs := by
  induction xs generalizing a with
  | nil => simp [beBase256]
  | cons b rest ih =>
      rw [List.foldl_cons, ih, beBase256]
      simp [List.length_cons, pow_succ]
      ring

theorem u64_be_prepend_zeros (xs : List Nat) (k : Nat) :
    u64_from_be_bytes (List.replicate k 0 ++ xs) = u64_from_be_bytes xs := by
  unfold u64_from_be_bytes
  rw [List.foldl_append]
  congr 1
  induction k with
  | zero => rfl
  | succ n ih => simpa [List.replicate_succ] using ih

theorem u64_be_eq_beBase256 (xs : List Nat) : u64_from_be_bytes xs = beBase256 xs := by
  unfold u64_from_be_bytes
  simpa using foldl_be_acc xs 0

theorem leBase256_lt {xs : List Nat} (h : ∀ b ∈ xs, b < 256) :
    leBase256 xs < 256 ^ xs.length := by
  induction xs with
  | nil => simp [leBase256]
  | cons b rest ih =>
      have hb : b < 256 := h b (List.mem_cons_self _ _)
      have hr := ih (fun x hx => h x (List.mem_cons_of_mem _ hx))
      rw [leBase256, List.length_cons, pow_succ]
      calc b + 256 * leBase256 rest < 256 + 256 * leBase256 rest := by omega
        _ ≤ 256 * 256 ^ rest.length := by
              have : leBase256 rest + 1 ≤ 256 ^ rest.length := hr
              nlinarith
        _ = 256 ^ rest.length * 256 := by ring

theorem beBase256_lt {xs : List Nat} (h : ∀ b ∈ xs, b < 256) :
    beBase256 xs < 256 ^ xs.length := by
  induction xs with
  | nil => simp [beBase256]
  | cons b rest ih =>
      have hb : b < 256 := h b (List.mem_cons_self _ _)
      have hr := ih (fun x hx => h x (List.mem_cons_of_mem _ hx))
      rw [beBase256, List.length_cons, pow_succ]
      nlinarith

theorem take_min_self (bs : List Nat) : bs.take (min bs.length 8) = bs.take 8 := by
  rw [Nat.min_comm, ← List.take_take, List.take_length]

/-! ## Claim theorems -/

/-- C10: `bytes_to_u64` is total over all three endian variants, and an
`Unknown` endian is silently interpreted exactly like `Little` (the
match falls through to the little-endian arm). -/
theorem C10_unknown_treated_little :
    ∀ bs : List Nat, bytes_to_u64 bs .unknown = bytes_to_u64 bs .little :=
  fun _ => rfl

/-- C7: `bytes_to_u64 bs Little` is the base-256 little-endian value of
the first `min(8, len bs)` bytes (zero-padding does not change it),
`Big` is the symmetric big-endian interpretation of those bytes, and
short inputs are zero- rather than sign-extended: the value is bounded
by `256 ^ min(len, 8)` whenever the input bytes are bytes. -/
theorem C7_bytes_to_u64_endian_law :
    ∀ bs : List Nat,
      bytes_to_u64 bs .little = leBase256 (bs.take 8)
      ∧ bytes_to_u64 bs .big = beBase256 (bs.take 8)
      ∧ ((∀ b ∈ bs, b < 256) → ∀ e, bytes_to_u64 bs e < 256 ^ min bs.length 8) := by
  intro bs
  have hle : bytes_to_u64 bs .little = leBase256 (bs.take 8) := by
    show u64_from_le_bytes (bs.take (min bs.length 8)
        ++ List.replicate (8 - min bs.length 8) 0) = _
    rw [u64_le_append_zeros, u64_le_eq_leBase256, take_min_self]
  have hbe : bytes_to_u64 bs .big = beBase256 (bs.take 8) := by
    show u64_from_be_bytes (List.replicate (8 - min bs.length 8) 0
        ++ bs.take (min bs.length 8)) = _
    rw [u64_be_prepend_zeros, u64_be_eq_beBase256, take_min_self]
  refine ⟨hle, hbe, ?_⟩
  intro h e
  have hlen : (bs.take 8).length = min bs.length 8 := by
    rw [List.length_take, Nat.min_comm]
  have hmem : ∀ b ∈ bs.take 8, b < 256 := fun b hb => h b (List.mem_of_mem_take hb)
  cases e with
  | big => rw [hbe, ← hlen]; exact beBase256_lt hmem
  | little => rw [hle, ← hlen]; exact leBase256_lt hmem
  | unknown =>
      rw [C10_unknown_treated_little bs] at *
      rw [hle, ← hlen]
      exact leBase256_lt hmem

/-- Witness for C7 at the concrete input `[0x01, 0x02, 0x03, 0x04]`. -/
theorem C7_witness :
    bytes_to_u64 ([1, 2, 3, 4]) .little = leBase256 (([1, 2, 3, 4] : List Nat).take 8)
    ∧ bytes_to_u64 ([1, 2, 3, 4]) .big < 256 ^ min ([1, 2, 3, 4] : List Nat).length 8 := by
  refine ⟨(C7_bytes_to_u64_endian_law ([1, 2, 3, 4])).1, ?_⟩
  exact (C7_bytes_to_u64_endian_law ([1, 2, 3, 4])).2.2 (by decide) .big

/-- C6: for every permission string and (whitespace-clean, as produced
by the memory-map reader) pathname, the region label is decided by the
first matching rule of the ordered table of §4.4; in particular a
library path with `rw-` permissions is `Lib`, not `Data`. -/
theorem C6_classify_table :
    ∀ perms pathname : Str, trimStr pathname = pathname →
      classify_region_label perms pathname = specRegionLabel perms pathname := by
  intro perms pathname h
  unfold classify_region_label specRegionLabel
  rw [h]

/-- Witness for C6: a library path mapped `rw-` is labeled `Lib`. -/
theorem C6_witness :
    classify_region_label (("rw-p").toList) (("/usr/lib/libfoo.so").toList)
      = specRegionLabel (("rw-p").toList) (("/usr/lib/libfoo.so").toList)
    ∧ classify_region_label (("rw-p").toList) (("/usr/lib/libfoo.so").toList) = .Lib :=
  ⟨C6_classify_table _ _ (by decide), by decide⟩

/-- Counterexample for C5: neither helper is idempotent as claimed.
With a double space before the bracket, each `normalize_type_name` pass
removes only one space (`"int  [5]"` normalizes to `"int [5]"`, which
normalizes again to `"int[5]"`); and `strip_pointer_suffix` of
`"int * *"` is `"int *"`, whose own stripped form is `"int"`. -/
theorem C5_counterexample :
    ¬ (normalize_type_name (normalize_type_name (("int  [5]").toList))
        = normalize_type_name (("int  [5]").toList))
    ∧ ¬ (strip_pointer_suffix (strip_pointer_suffix (("int * *").toList))
        = strip_pointer_suffix (("int * *").toList)) := by
  exact ⟨by decide, by decide⟩

/-- C5 amended: `normalize_type_name` is idempotent exactly on the
inputs whose normalized form has no space left directly before a `[`
(one pass removes one space per run), and `strip_pointer_suffix` is
idempotent exactly on the inputs whose stripped form does not itself
end in `*` (stripping can expose a new trailing star across spaces). -/
theorem C5_idempotence_amended :
    (∀ s : Str, noSpBr (normalize_type_name s) = true →
      normalize_type_name (normalize_type_name s) = normalize_type_name s)
    ∧ (∀ s : Str, ¬ (strip_pointer_suffix s).getLast? = some '*' →
      strip_pointer_suffix (strip_pointer_suffix s) = strip_pointer_suffix s) := by
  constructor
  · intro s h
    have htrim : trimStr (normCore (trimStr s)) = normCore (trimStr s) := by
      apply trimStr_noop
      · intro c hc
        cases hts : trimStr s with
        | nil => rw [hts, normCore.eq_1] at hc; simp at hc
        | cons d rest =>
            have hthead : (trimStr s).head? = some d := by rw [hts]; rfl
            have hd : isWs d = false := trimStr_head hthead
            have hds : ¬ d = ' ' := by intro he; rw [he] at hd; simp [isWs] at hd
            have hh := normCore_head hthead hds
            have : some d = some c := hh.symm.trans hc
            injection this with hdc
            rw [← hdc]
            exact hd
      · intro c hc
        rw [normCore_getLast] at hc
        exact trimStr_getLast hc
    show normCore (trimStr (normCore (trimStr s))) = normCore (trimStr s)
    rw [htrim]
    exact normCore_of_noSpBr h
  · intro s h
    have h1 : trimStr (strip_pointer_suffix s) = strip_pointer_suffix s := by
      unfold strip_pointer_suffix
      exact trimStr_trimStr _
    show trimStr (trimEndMatches '*' (trimStr (strip_pointer_suffix s)))
        = strip_pointer_suffix s
    rw [h1, trimEndMatches_noop h, h1]

/-- Witness for C5 at `"int [5]"` and `"struct Node *"`, which satisfy
the amended side conditions. -/
theorem C5_witness :
    (noSpBr (normalize_type_name (("int [5]").toList)) = true
      ∧ normalize_type_name (normalize_type_name (("int [5]").toList))
          = normalize_type_name (("int [5]").toList))
    ∧ (¬ (strip_pointer_suffix (("struct Node *").toList)).getLast? = some '*'
      ∧ strip_pointer_suffix (strip_pointer_suffix (("struct Node *").toList))
          = strip_pointer_suffix (("struct Node *").toList)) :=
  ⟨⟨by decide, C5_idempotence_amended.1 _ (by decide)⟩,
   ⟨by decide, C5_idempotence_amended.2 _ (by decide)⟩⟩

theorem stopWaitInv_refl (lines : List Str) (st : SessionSt) : stopWaitInv lines st st :=
  ⟨rfl, rfl, rfl, fun _ ha => ha, fun hn => Or.inl hn⟩

theorem stopWaitInv_cons {line : Str} {rest : List Str} {st st' : SessionSt}
    (h : stopWaitInv rest st st') : stopWaitInv (line :: rest) st st' := by
  refine ⟨h.1, h.2.1, h.2.2.1, h.2.2.2.1, ?_⟩
  intro hn
  rcases h.2.2.2.2 hn with hnone | ⟨l, hl, he⟩
  · exact Or.inl hnone
  · exact Or.inr ⟨l, List.mem_cons_of_mem _ hl, he⟩

theorem stopWaitInv_stopped {line : Str} {rest : List Str} {st st' : SessionSt}
    (h : stopWaitInv rest
      (if st.arch = none
        then { st with arch := (parse_stopped (trimStr line)).arch } else st) st') :
    stopWaitInv (line :: rest) st st' := by
  by_cases hn : st.arch = none
  · rw [if_pos hn] at h
    refine ⟨h.1, h.2.1, h.2.2.1, ?_, ?_⟩
    · intro a ha
      rw [hn] at ha
      cases ha
    · intro _
      cases harch : (parse_stopped (trimStr line)).arch with
      | none =>
          rcases h.2.2.2.2 (by simp [harch]) with hnone | ⟨l, hl, he⟩
          · exact Or.inl hnone
          · exact Or.inr ⟨l, List.mem_cons_of_mem _ hl, he⟩
      | some b =>
          have : st'.arch = some b := h.2.2.2.1 b (by simp [harch])
          exact Or.inr ⟨line, List.mem_cons_self _ _, by rw [this, harch]⟩
  · rw [if_neg hn] at h
    refine ⟨h.1, h.2.1, h.2.2.1, h.2.2.2.1, fun hc => absurd hc hn⟩

theorem wfsc_inv : ∀ (lines : List Str) (st : SessionSt) (acc : Option StoppedLocation)
    (st' : SessionSt) (r : WaitRes),
    wait_for_stop_capture lines st acc = (st', r) → stopWaitInv lines st st' := by
  intro lines
  induction lines with
  | nil =>
      intro st acc st' r h
      simp only [wait_for_stop_capture] at h
      injection h with h1 _
      subst h1
      exact stopWaitInv_refl _ _
  | cons line rest ih =>
      intro st acc st' r h
      simp only [wait_for_stop_capture] at h
      by_cases h0 : trimStr line = []
      · rw [if_pos h0] at h
        exact stopWaitInv_cons (ih st acc st' r h)
      · rw [if_neg h0] at h
        by_cases h1 : trimStr line = ("(gdb)").toList
        · rw [if_pos h1] at h
          cases acc with
          | some loc =>
              injection h with ha _
              subst ha
              exact stopWaitInv_refl _ _
          | none => exact stopWaitInv_cons (ih st none st' r h)
        · rw [if_neg h1] at h
          by_cases h2 : isPre (("*stopped").toList) (trimStr line) = true
          · rw [if_pos h2] at h
            exact stopWaitInv_stopped (ih _ _ _ _ h)
          · rw [if_neg h2] at h
            by_cases h3 : isPre (("^error").toList) (trimStr line) = true
            · rw [if_pos h3] at h
              injection h with ha _
              subst ha
              exact stopWaitInv_refl _ _
            · rw [if_neg h3] at h
              exact stopWaitInv_cons (ih st acc st' r h)

theorem wfs_inv : ∀ (lines : List Str) (st : SessionSt) (sawStop : Bool)
    (st' : SessionSt) (r : WaitRes),
    wait_for_stop lines st sawStop = (st', r) → stopWaitInv lines st st' := by
  intro lines
  induction lines with
  | nil =>
      intro st sawStop st' r h
      simp only [wait_for_stop] at h
      injection h with h1 _
      subst h1
      exact stopWaitInv_refl _ _
  | cons line rest ih =>
      intro st sawStop st' r h
      simp only [wait_for_stop] at h
      by_cases h0 : trimStr line = []
      · rw [if_pos h0] at h
        exact stopWaitInv_cons (ih st sawStop st' r h)
      · rw [if_neg h0] at h
        by_cases h1 : trimStr line = ("(gdb)").toList
        · rw [if_pos h1] at h
          cases hs : sawStop with
          | true =>
              rw [hs, if_pos rfl] at h
              injection h with ha _
              subst ha
              exact stopWaitInv_refl _ _
          | false =>
              rw [hs] at h
              rw [if_neg (by simp)] at h
              exact stopWaitInv_cons (ih st false st' r h)
        · rw [if_neg h1] at h
          by_cases h2 : isPre (("*stopped").toList) (trimStr line) = true
          · rw [if_pos h2] at h
            exact stopWaitInv_stopped (ih _ _ _ _ h)
          · rw [if_neg h2] at h
            by_cases h3 : isPre (("^error").toList) (trimStr line) = true
            · rw [if_pos h3] at h
              injection h with ha _
              subst ha
              exact stopWaitInv_refl _ _
            · rw [if_neg h3] at h
              exact stopWaitInv_cons (ih st sawStop st' r h)

/-- C9: both stop-wait loops (`wait_for_stop_capture`, used by the
control commands, and `wait_for_stop`) update the cached architecture
from a stop event's `arch` field only when it was previously unset, an
already-cached architecture is left unchanged by every stop event, and
the cached word size, word-known flag and endian are never modified by
the loops. -/
theorem C9_stop_wait_arch_caching :
    (∀ (lines : List Str) (st st' : SessionSt) (r : WaitRes),
      wait_for_stop_capture lines st none = (st', r) → stopWaitInv lines st st')
    ∧ (∀ (lines : List Str) (st st' : SessionSt) (r : WaitRes),
      wait_for_stop lines st false = (st', r) → stopWaitInv lines st st') :=
  ⟨fun lines st st' r h => wfsc_inv lines st none st' r h,
   fun lines st st' r h => wfs_inv lines st false st' r h⟩

/-- Witness for C9: a concrete stop event followed by a prompt, with an
architecture already cached, leaves the session state unchanged. -/
theorem C9_witness : stopWaitInv c9Lines c9St c9St :=
  C9_stop_wait_arch_caching.1 c9Lines c9St c9St
    (.ok (parse_stopped (trimStr c9Line))) (by rfl)

theorem followLoop_spec (o : FollowOracle) (pt : Str) (link : FieldLayout) :
    ∀ fuel addr iters a r, followLoop o pt link fuel addr = (iters, a, r) →
      iters ≤ fuel ∧ (r = .hopLimit → iters = fuel) ∧ (r = .null → a = 0)
      ∧ (r = .overflow → u64Max < a + link.offset)
      ∧ (r = .readErr → ¬ u64Max < a + link.offset
          ∧ o.readPtrAt (a + link.offset) link.size = none) := by
  intro fuel
  induction fuel with
  | zero =>
      intro addr iters a r h
      simp only [followLoop] at h
      injection h with h1 h2
      injection h2 with h2 h3
      subst h1; subst h2; subst h3
      refine ⟨Nat.le_refl 0, fun _ => rfl, fun hc => ?_, fun hc => ?_, fun hc => ?_⟩
      all_goals simp at hc
  | succ n ih =>
      intro addr iters a r h
      simp only [followLoop] at h
      by_cases h0 : addr = 0
      · rw [if_pos h0] at h
        injection h with h1 h2
        injection h2 with h2 h3
        subst h1; subst h2; subst h3
        refine ⟨by omega, fun hc => ?_, fun _ => h0, fun hc => ?_, fun hc => ?_⟩
        all_goals simp at hc
      · rw [if_neg h0] at h
        by_cases hof : u64Max < addr + link.offset
        · rw [if_pos hof] at h
          injection h with h1 h2
          injection h2 with h2 h3
          subst h1; subst h2; subst h3
          refine ⟨by omega, fun hc => ?_, fun hc => ?_, fun _ => hof, fun hc => ?_⟩
          all_goals simp at hc
        · rw [if_neg hof] at h
          cases hread : o.readPtrAt (addr + link.offset) link.size with
          | none =>
              rw [hread] at h
              injection h with h1 h2
              injection h2 with h2 h3
              subst h1; subst h2; subst h3
              refine ⟨by omega, fun hc => ?_, fun hc => ?_, fun hc => ?_,
                fun _ => ⟨hof, hread⟩⟩
              all_goals simp at hc
          | some next =>
              rw [hread] at h
              injection h with h1 h2
              injection h2 with h2 h3
              have := ih next (followLoop o pt link n next).1
                (followLoop o pt link n next).2.1 (followLoop o pt link n next).2.2 rfl
              subst h2; subst h3
              refine ⟨by omega, fun hc => ?_, this.2.2.1, this.2.2.2.1, this.2.2.2.2⟩
              have := this.2.1 hc
              omega

theorem followWithDepth_walked {o : FollowOracle} {sym : Str} {d : Nat}
    {link : FieldLayout} {iters a : Nat} {r : StopReason}
    (h : followWithDepth o sym d = .walked link iters a r) :
    ∃ pt addr0, followLoop o pt link d addr0 = (iters, a, r) := by
  unfold followWithDepth at h
  dsimp only at h
  repeat' split at h
  all_goals simp only [FollowOutcome.walked.injEq, reduceCtorEq] at h
  obtain ⟨h1, h2, h3, h4⟩ := h
  subst h1
  exact ⟨_, _, by rw [← h2, ← h3, ← h4]⟩

/-- C2: for every argument string and every behaviour of the debugger
oracle, a pointer-chain walk executes at most the resolved hop limit
`d` of loop iterations, ends with the `hopLimit` reason exactly by
exhausting all `d` iterations, and stops early only on a NULL current
address, on 64-bit checked-add overflow of the link offset, or on a
failed sized read of the link field; and a hop limit of zero supplied
as input is rejected before any walking. -/
theorem C2_follow_walker_bounds :
    ∀ (args : Str) (o : FollowOracle),
      (∀ link iters a r, handle_follow args o = .walked link iters a r →
        ∃ d, followDepth args = some d ∧ 0 < d ∧ iters ≤ d
          ∧ (r = .hopLimit → iters = d)
          ∧ (r = .null → a = 0)
          ∧ (r = .overflow → u64Max < a + link.offset)
          ∧ (r = .readErr → ¬ u64Max < a + link.offset
              ∧ o.readPtrAt (a + link.offset) link.size = none))
      ∧ (followDepth args = some 0 → handle_follow args o = .depthNotPositive) := by
  intro args o
  constructor
  · intro link iters a r h
    unfold handle_follow at h
    cases hsplit : splitWs args with
    | nil => rw [hsplit] at h; simp at h
    | cons sym restParts =>
        rw [hsplit] at h
        dsimp only at h
        have hdepth : followDepth args
            = (match restParts.head? with
               | some raw => parseUsizeRust raw
               | none => some 8) := by
          unfold followDepth
          rw [hsplit]
        cases hh : restParts.head? with
        | none =>
            rw [hh] at h hdepth
            dsimp only at h hdepth
            rcases followWithDepth_walked h with ⟨pt, addr0, heq⟩
            have spec := followLoop_spec o pt link 8 addr0 iters a r heq
            exact ⟨8, hdepth, by omega, spec.1, spec.2.1, spec.2.2.1, spec.2.2.2.1,
              spec.2.2.2.2⟩
        | some raw =>
            rw [hh] at h hdepth
            dsimp only at h hdepth
            cases hp : parseUsizeRust raw with
            | none => rw [hp] at h; simp at h
            | some v =>
                rw [hp] at h hdepth
                dsimp only at h
                by_cases hv : 0 < v
                · rw [if_pos hv] at h
                  rcases followWithDepth_walked h with ⟨pt, addr0, heq⟩
                  have spec := followLoop_spec o pt link v addr0 iters a r heq
                  exact ⟨v, hdepth, hv, spec.1, spec.2.1, spec.2.2.1, spec.2.2.2.1,
                    spec.2.2.2.2⟩
                · rw [if_neg hv] at h
                  simp at h
  · intro h0
    unfold handle_follow
    unfold followDepth at h0
    cases hsplit : splitWs args with
    | nil => rw [hsplit] at h0; simp at h0
    | cons sym restParts =>
        rw [hsplit] at h0
        dsimp only at h0 ⊢
        cases hh : restParts.head? with
        | none =>
            rw [hh] at h0
            dsimp only at h0
            simp at h0
        | some raw =>
            rw [hh] at h0
            dsimp only at h0
            dsimp only
            rw [h0]
            dsimp only
            simp

/-- Witness for C2: with the concrete oracle, following `p` (default
hop limit 8) walks one link that reads 0 and stops NULL after two loop
iterations, within the hop limit. -/
theorem C2_witness :
    handle_follow (("p").toList) c2Oracle = .walked c2Link 2 0 .null
    ∧ 2 ≤ 8 ∧ (0 : Nat) = 0 := by
  have happ := (C2_follow_walker_bounds (("p").toList) c2Oracle).1 c2Link 2 0 .null (by rfl)
  rcases happ with ⟨d, hd, hpos, hle, hhop, hnullc, hof, hre⟩
  have hd8 : d = 8 := by
    have h8 : followDepth (("p").toList) = some 8 := by rfl
    rw [h8] at hd
    injection hd with h
    exact h.symm
  exact ⟨by rfl, by rw [← hd8]; exact hle, hnullc rfl⟩

theorem arrayLineLoop_isArray {w : Nat} : ∀ {ls : List Str} {l : TypeLayout},
    arrayLineLoop w ls = some l → ∃ a b c d e, l = .Array a b c d e := by
  intro ls
  induction ls with
  | nil => intro l h; simp [arrayLineLoop] at h
  | cons line rest ih =>
      intro l h
      rw [arrayLineLoop] at h
      dsimp only at h
      split at h
      · split at h
        · split at h
          · split at h
            · injection h with h1
              exact ⟨_, _, _, _, _, h1.symm⟩
            · exact ih h
          · exact ih h
        · exact ih h
      · exact ih h

theorem parse_struct_block_fields {text : Str} {n : Str} {s : Nat} {fl : List FieldLayout}
    (h : parse_struct_block text = some (.Struct n s fl)) : fl ≠ [] := by
  unfold parse_struct_block at h
  split at h
  · exact absurd h (by simp)
  · split at h
    · exact absurd h (by simp)
    · split at h
      · exact absurd h (by simp)
      · next hne =>
          injection h with h1
          injection h1 with _ _ h3
          exact h3 ▸ hne

theorem chainEnds_le_last {fields : List FieldLayout}
    (hc : List.Chain' (fun f g => f.offset + f.size ≤ g.offset + g.size) fields) :
    ∀ f ∈ fields, ∀ fl, fields.getLast? = some fl → f.offset + f.size ≤ fl.offset + fl.size := by
  induction fields with
  | nil => intro f hf; cases hf
  | cons a rest ih =>
      intro f hf fl hfl
      cases rest with
      | nil =>
          rcases List.mem_singleton.mp hf with rfl
          simp at hfl
          rw [← hfl]
      | cons b bs =>
          rw [List.getLast?_cons_cons] at hfl
          have hr : List.Chain' (fun f g => f.offset + f.size ≤ g.offset + g.size) (b :: bs) :=
            (List.chain'_cons'.mp hc).2
          have hab : a.offset + a.size ≤ b.offset + b.size := by
            have := (List.chain'_cons'.mp hc).1
            exact this b rfl
          rcases List.mem_cons.mp hf with rfl | hfrest
          · exact Nat.le_trans hab (ih hr b (List.mem_cons_self _ _) fl hfl)
          · exact ih hr f hfrest fl hfl

/-- Counterexample for C3: a syntactically well-formed `ptype /o` text
with out-of-order annotations parses to a Struct whose fields are not
in non-decreasing offset order and whose first field extends past the
computed total size (the footer-less total is the last field's end,
`0 + 4 = 4`, while the first field ends at `8 + 4 = 12`). -/
theorem C3_counterexample :
    isStructB (parse_ptype_output c3Text 8 4) = true
    ∧ structInvHolds (parse_ptype_output c3Text 8 4) = false :=
  ⟨by decide, by decide⟩

/-- C3 amended: `parse_ptype_output` keeps struct members in the order
of the annotation lines and never returns an empty Struct; when the
annotated offsets are non-decreasing, the annotated field ends are
non-decreasing, and the total size (the footer when present, else the
last field's end) is at least the last field's end — as in every
well-formed `ptype /o` text — the claimed invariants hold: offsets
pairwise non-decreasing and no field extending past the total size. -/
theorem C3_struct_invariants_amended :
    ∀ (text : Str) (w fb : Nat) (name : Str) (sz : Nat) (fields : List FieldLayout),
      parse_ptype_output text w fb = .Struct name sz fields →
      List.Chain' (fun f g => f.offset ≤ g.offset) fields →
      List.Chain' (fun f g => f.offset + f.size ≤ g.offset + g.size) fields →
      (∀ fl, fields.getLast? = some fl → fl.offset + fl.size ≤ sz) →
      fields ≠ []
      ∧ List.Pairwise (fun f g => f.offset ≤ g.offset) fields
      ∧ ∀ f ∈ fields, f.offset + f.size ≤ sz := by
  intro text w fb name sz fields hp hord hends hlast
  have hne : fields ≠ [] := by
    unfold parse_ptype_output at hp
    split at hp
    · next l hl =>
        rcases arrayLineLoop_isArray hl with ⟨a, b, c, d, e, rfl⟩
        cases hp
    · split at hp
      · next l hl =>
          subst hp
          exact parse_struct_block_fields hl
      · cases hp
  refine ⟨hne, ?_, ?_⟩
  · haveI : IsTrans FieldLayout (fun f g => f.offset ≤ g.offset) :=
      ⟨fun _ _ _ hab hbc => Nat.le_trans hab hbc⟩
    exact List.chain'_iff_pairwise.mp hord
  · intro f hf
    cases hgl : fields.getLast? with
    | none => exact absurd (List.getLast?_eq_none_iff.mp hgl) hne
    | some fl =>
        exact Nat.le_trans (chainEnds_le_last hends f hf fl hgl) (hlast fl hgl)

/-- Witness for C3 at the spec's `struct Node` text, which satisfies
the amended side conditions. -/
theorem C3_witness :
    nodeFields ≠ []
    ∧ List.Pairwise (fun f g : FieldLayout => f.offset ≤ g.offset) nodeFields
    ∧ ∀ f ∈ nodeFields, f.offset + f.size ≤ 32 :=
  C3_struct_invariants_amended nodeText 8 4 (("Node").toList) 32 nodeFields (by rfl)
    (by unfold nodeFields; simp [List.chain'_cons])
    (by unfold nodeFields; simp [List.chain'_cons])
    (by intro fl hfl; simp [nodeFields] at hfl; subst hfl; decide)

theorem escCap_wf : ∀ (v : Str), escWf v = true → ∀ rest : Str,
    escCap (v ++ '"' :: rest) = some v
  | [], _, _ => rfl
  | [c], h, rest => by
      rw [escWf.eq_2] at h
      by_cases hq : c = '"'
      · rw [if_pos hq] at h; cases h
      · rw [if_neg hq] at h
        by_cases hb : c = '\\'
        · rw [if_pos hb] at h; cases h
        · show escCap (c :: '"' :: rest) = some [c]
          rw [escCap.eq_4 c ('"' :: rest) (fun he => hq he) (fun _ _ he _ => hb he),
            escCap.eq_2]
          rfl
  | c :: d :: t2, h, rest => by
      rw [escWf.eq_3] at h
      by_cases hq : c = '"'
      · rw [if_pos hq] at h; cases h
      · rw [if_neg hq] at h
        by_cases hb : c = '\\'
        · rw [if_pos hb] at h
          by_cases hn : d = '\n'
          · rw [if_pos hn] at h; cases h
          · rw [if_neg hn] at h
            subst hb
            show escCap ('\\' :: d :: (t2 ++ '"' :: rest)) = some ('\\' :: d :: t2)
            rw [escCap.eq_3, if_neg hn, escCap_wf t2 h rest]
        · rw [if_neg hb] at h
          show escCap (c :: ((d :: t2) ++ '"' :: rest)) = some (c :: d :: t2)
          rw [escCap.eq_4 c ((d :: t2) ++ '"' :: rest) (fun he => hq he)
            (fun _ _ he _ => hb he), escCap_wf (d :: t2) h rest]
          rfl

theorem scanKey_some_src {α : Type} {cap : Str → Option α} {key s : Str} {v : α}
    (h : scanKey cap key s = some v) : ∃ t, cap t = some v := by
  induction s with
  | nil => rw [scanKey] at h; cases h
  | cons c rest ih =>
      rw [scanKey] at h
      split at h
      · split at h
        · next t hv =>
            injection h with h1
            exact ⟨_, h1 ▸ hv⟩
        · exact ih h
      · exact ih h

theorem plainCap_no_quote {t cap : Str} (h : plainCap t = some cap) :
    ∀ c ∈ cap, ¬ c = '"' := by
  unfold plainCap at h
  dsimp only at h
  split at h
  · cases h
  · split at h
    · cases h
    · injection h with h1
      intro c hc
      have := List.mem_takeWhile_imp (h1 ▸ hc)
      exact of_decide_eq_true this

/-- Counterexample for C4: on an error record whose `msg` value contains
escaped quotes, `parse_msg_field` stops at the escaped quote and
returns the truncated `say \` instead of the full body. -/
theorem C4_counterexample :
    parse_msg_field c4Record = some c4Cap
    ∧ ¬ parse_msg_field c4Record = some c4Full :=
  ⟨by rfl, by decide⟩

/-- C4 amended: the `value` and `type` extractors respect the full
escape grammar of §4.1 — for every well-formed body, including one with
escaped quotes, they return the whole body (unescaped) — but the `msg`
and `addr` extractors capture only a run of non-quote characters, so
any capture they return can never contain a quote: a field value with
an escaped quote is truncated at it. -/
theorem C4_field_extractors_amended :
    (∀ v rest : Str, escWf v = true →
      parse_value_field (valueKey ++ (v ++ '"' :: rest)) = some (unescape_value v))
    ∧ (∀ v rest : Str, escWf v = true →
      parse_type_field (typeKey ++ (v ++ '"' :: rest)) = some (unescape_value v))
    ∧ (∀ s cap : Str, parse_msg_field s = some cap → ∀ c ∈ cap, ¬ c = '"')
    ∧ (∀ s cap : Str, parse_addr_field s = some cap → ∀ c ∈ cap, ¬ c = '"') := by
  refine ⟨?_, ?_, ?_, ?_⟩
  · intro v rest hwf
    unfold parse_value_field
    rw [@scanKey_hit Str escCap valueKey (by decide) (v ++ '"' :: rest) v
      (escCap_wf v hwf rest)]
    rfl
  · intro v rest hwf
    unfold parse_type_field
    rw [@scanKey_hit Str escCap typeKey (by decide) (v ++ '"' :: rest) v
      (escCap_wf v hwf rest)]
    rfl
  · intro s cap h
    rcases scanKey_some_src h with ⟨t, ht⟩
    exact plainCap_no_quote ht
  · intro s cap h
    rcases scanKey_some_src h with ⟨t, ht⟩
    exact plainCap_no_quote ht

/-- Witness for C4: the escaped-quote body round-trips through the
`value` extractor, and the truncated `msg` capture indeed contains no
quote. -/
theorem C4_witness :
    (escWf c4Full = true
      ∧ parse_value_field (valueKey ++ (c4Full ++ '"' :: [])) = some (unescape_value c4Full))
    ∧ (∀ c ∈ c4Cap, ¬ c = '"') :=
  ⟨⟨by decide, C4_field_extractors_amended.1 c4Full [] (by decide)⟩,
   C4_field_extractors_amended.2.2.1 c4Record c4Cap (by rfl)⟩

set_option maxRecDepth 10000

theorem hexByteChars_mem : ∀ b < 256, ∀ c ∈ hexByteChars b, c ∈ hexAlphabet := by decide

theorem parse_hex_byte_plain : ∀ b < 256, parse_hex_byte (hexByteChars b) = some b := by
  decide

theorem parse_hex_byte_quoted : ∀ b < 256, parse_hex_byte (quotedHexItem b) = some b := by
  decide

theorem quotedHexItem_mem : ∀ b < 256, ∀ c ∈ quotedHexItem b, c ∈ itemAlphabet := by decide

theorem parseHexU8_hexByteChars : ∀ b < 256, parseHexU8Rust (hexByteChars b) = some b := by
  decide

theorem hexAlphabet_props : ∀ c ∈ hexAlphabet, isHexCh c = true ∧ ¬ c = '"' ∧ ¬ c = 'y'
    ∧ ¬ c = ']' ∧ ¬ c = ',' ∧ ¬ c = 'o' ∧ isWs c = false := by decide

theorem itemAlphabet_props : ∀ c ∈ itemAlphabet, ¬ c = ']' ∧ ¬ c = 'y' ∧ ¬ c = 'o' := by
  decide

theorem not_mem_app {c : Char} {a b : Str} (ha : c ∉ a) (hb : c ∉ b) : c ∉ a ++ b := by
  intro h
  rcases List.mem_append.mp h with h | h
  · exact ha h
  · exact hb h

theorem hexRender_nil : hexRender [] = [] := rfl

theorem hexRender_cons (b : Nat) (bs : List Nat) :
    hexRender (b :: bs) = hexByteChars b ++ hexRender bs := by
  simp [hexRender]

theorem hexRender_mem {bs : List Nat} (h : ∀ b ∈ bs, b < 256) :
    ∀ c ∈ hexRender bs, c ∈ hexAlphabet := by
  induction bs with
  | nil => simp [hexRender_nil]
  | cons b rest ih =>
      intro c hc
      rw [hexRender_cons] at hc
      rcases List.mem_append.mp hc with hc | hc
      · exact hexByteChars_mem b (h b (List.mem_cons_self _ _)) c hc
      · exact ih (fun x hx => h x (List.mem_cons_of_mem _ hx)) c hc

theorem hexRender_len_even (bs : List Nat) : (hexRender bs).length % 2 = 0 := by
  induction bs with
  | nil => rfl
  | cons b rest ih =>
      rw [hexRender_cons]
      simp only [List.length_append]
      rw [show (hexByteChars b).length = 2 from rfl]
      omega

theorem hexPairs_hexRender {bs : List Nat} (h : ∀ b ∈ bs, b < 256) :
    hex_str_to_bytes.hexPairsToBytes (hexRender bs) = .ok bs := by
  induction bs with
  | nil => rfl
  | cons b rest ih =>
      rw [hexRender_cons]
      show hex_str_to_bytes.hexPairsToBytes
        (hexDigitCh (b / 16) :: hexDigitCh (b % 16) :: hexRender rest) = _
      rw [hex_str_to_bytes.hexPairsToBytes]
      rw [show ([hexDigitCh (b / 16), hexDigitCh (b % 16)] : Str) = hexByteChars b from rfl]
      rw [parseHexU8_hexByteChars b (h b (List.mem_cons_self _ _))]
      rw [ih (fun x hx => h x (List.mem_cons_of_mem _ hx))]

theorem hex_str_to_bytes_hexRender {bs : List Nat} (h : ∀ b ∈ bs, b < 256) :
    hex_str_to_bytes (hexRender bs) = .ok bs := by
  unfold hex_str_to_bytes
  rw [if_neg (by rw [hexRender_len_even bs]; simp)]
  exact hexPairs_hexRender h

theorem hex_str_to_bytes_odd {h : Str} (hodd : h.length % 2 = 1) :
    ∀ bs, ¬ hex_str_to_bytes h = .ok bs := by
  intro bs hc
  unfold hex_str_to_bytes at hc
  rw [if_pos (by omega)] at hc
  cases hc

theorem splitWsAux_token {tok : Str} (htok : ∀ c ∈ tok, isWs c = false) :
    ∀ (s acc : Str), splitWsAux (tok ++ s) acc = splitWsAux s (tok.reverse ++ acc) := by
  induction tok with
  | nil => intro s acc; simp
  | cons c tok' ih =>
      intro s acc
      show splitWsAux (c :: (tok' ++ s)) acc = _
      rw [splitWsAux]
      rw [htok c (List.mem_cons_self _ _)]
      rw [if_neg (by simp)]
      rw [ih (fun x hx => htok x (List.mem_cons_of_mem _ hx)) s (c :: acc)]
      simp

theorem splitWs_sepSpace : ∀ (items : List Str), items ≠ [] →
    (∀ t ∈ items, t ≠ [] ∧ ∀ c ∈ t, isWs c = false) →
    splitWs (sepSpace items) = items := by
  intro items
  induction items with
  | nil => intro h; exact absurd rfl h
  | cons x rest ih =>
      intro _ hx
      cases rest with
      | nil =>
          show splitWsAux (sepSpace [x]) [] = [x]
          rw [show sepSpace [x] = x ++ [] by simp [sepSpace]]
          rw [splitWsAux_token (hx x (List.mem_cons_self _ _)).2 [] []]
          rw [splitWsAux]
          rw [if_neg (by
            simp only [List.append_nil]
            intro hrev
            exact (hx x (List.mem_cons_self _ _)).1 (by simpa using congrArg List.reverse hrev))]
          simp
      | cons y ys =>
          show splitWsAux (sepSpace (x :: y :: ys)) [] = x :: y :: ys
          rw [show sepSpace (x :: y :: ys) = x ++ ' ' :: sepSpace (y :: ys) from rfl]
          rw [splitWsAux_token (hx x (List.mem_cons_self _ _)).2 _ []]
          rw [splitWsAux]
          rw [if_pos (by simp [isWs])]
          rw [if_neg (by
            simp only [List.append_nil]
            intro hrev
            exact (hx x (List.mem_cons_self _ _)).1 (by simpa using congrArg List.reverse hrev))]
          simp only [List.append_nil, List.reverse_reverse]
          rw [show splitWsAux (sepSpace (y :: ys)) [] = splitWs (sepSpace (y :: ys)) from rfl]
          rw [ih (by simp) (fun t ht => hx t (List.mem_cons_of_mem _ ht))]

theorem splitChAux_token {sep : Char} {tok : Str} (htok : ∀ c ∈ tok, ¬ c = sep) :
    ∀ (s acc : Str), splitChAux sep (tok ++ s) acc = splitChAux sep s (tok.reverse ++ acc) := by
  induction tok with
  | nil => intro s acc; simp
  | cons c tok' ih =>
      intro s acc
      show splitChAux sep (c :: (tok' ++ s)) acc = _
      rw [splitChAux]
      rw [if_neg (by simp [htok c (List.mem_cons_self _ _)])]
      rw [ih (fun x hx => htok x (List.mem_cons_of_mem _ hx)) s (c :: acc)]
      simp

theorem splitCh_sepComma : ∀ (items : List Str),
    (∀ t ∈ items, ∀ c ∈ t, ¬ c = ',') → items ≠ [] →
    splitCh ',' (sepComma items) = items := by
  intro items
  induction items with
  | nil => intro _ h; exact absurd rfl h
  | cons x rest ih =>
      intro hx _
      cases rest with
      | nil =>
          show splitChAux ',' (sepComma [x]) [] = [x]
          rw [show sepComma [x] = x ++ [] by simp [sepComma]]
          rw [splitChAux_token (hx x (List.mem_cons_self _ _)) [] []]
          rw [splitChAux]
          simp
      | cons y ys =>
          show splitChAux ',' (sepComma (x :: y :: ys)) [] = x :: y :: ys
          rw [show sepComma (x :: y :: ys) = x ++ ',' :: sepComma (y :: ys) from rfl]
          rw [splitChAux_token (hx x (List.mem_cons_self _ _)) _ []]
          rw [splitChAux]
          rw [if_pos rfl]
          simp only [List.append_nil, List.reverse_reverse]
          rw [show splitChAux ',' (sepComma (y :: ys)) [] = splitCh ',' (sepComma (y :: ys)) from rfl]
          rw [ih (fun t ht => hx t (List.mem_cons_of_mem _ ht)) (by simp)]

theorem hexQCap_payload {h : Str} (hne : h ≠ []) (hhex : ∀ c ∈ h, isHexCh c = true) :
    hexQCap (h ++ ['"']) = some h := by
  unfold hexQCap
  dsimp only
  rw [show (h ++ ['"'] : Str) = h ++ '"' :: [] from rfl]
  rw [takeWhile_append_all hhex (by decide) [], dropWhile_append_all hhex (by decide) []]
  rw [if_neg hne, if_pos (show isPre ['"'] ('"' :: []) = true by decide)]

theorem plainCap_payload {w : Str} (hne : w ≠ []) (hq : ∀ c ∈ w, ¬ c = '"') (rest : Str) :
    plainCap (w ++ '"' :: rest) = some w := by
  unfold plainCap
  dsimp only
  rw [takeWhile_append_all (fun c hc => decide_eq_true (hq c hc)) (by decide) rest]
  rw [dropWhile_append_all (fun c hc => decide_eq_true (hq c hc)) (by decide) rest]
  rw [if_neg hne, if_neg (by simp)]

theorem bracketCap_payload {w : Str} (hne : w ≠ []) (hq : ∀ c ∈ w, ¬ c = ']') (rest : Str) :
    bracketCap (w ++ ']' :: rest) = some w := by
  unfold bracketCap
  dsimp only
  rw [takeWhile_append_all (fun c hc => decide_eq_true (hq c hc)) (by decide) rest]
  rw [dropWhile_append_all (fun c hc => decide_eq_true (hq c hc)) (by decide) rest]
  rw [if_neg hne, if_neg (by simp)]

theorem scanKey_cons_miss {α : Type} (cap : Str → Option α) {key : Str} {c : Char} {s : Str}
    (h : isPre key (c :: s) = false) : scanKey cap key (c :: s) = scanKey cap key s := by
  rw [scanKey, h]
  simp

theorem contentsQ_miss_bracket {l : Str} (ho : 'o' ∉ l) :
    scanKey plainCap contentsQKey (contentsBrKey ++ l) = none := by
  have hk : contentsQKey = 'c' :: 'o' :: 'n' :: 't' :: 'e' :: 'n' :: 't' :: 's' :: '=' :: '"' :: [] := rfl
  rw [show contentsBrKey ++ l
      = 'c' :: 'o' :: 'n' :: 't' :: 'e' :: 'n' :: 't' :: 's' :: '=' :: '[' :: l from rfl]
  rw [scanKey_cons_miss _ (by rw [hk]; simp [isPre])]
  rw [scanKey_cons_miss _ (by rw [hk]; simp [isPre])]
  rw [scanKey_cons_miss _ (by rw [hk]; simp [isPre])]
  rw [scanKey_cons_miss _ (by rw [hk]; simp [isPre])]
  rw [scanKey_cons_miss _ (by rw [hk]; simp [isPre])]
  rw [scanKey_cons_miss _ (by rw [hk]; simp [isPre])]
  rw [scanKey_cons_miss _ (by rw [hk]; simp [isPre])]
  rw [scanKey_cons_miss _ (by rw [hk]; simp [isPre])]
  rw [scanKey_cons_miss _ (by rw [hk]; simp [isPre])]
  rw [scanKey_cons_miss _ (by rw [hk]; simp [isPre])]
  exact scanKey_absent _ (show 'o' ∈ contentsQKey by decide) ho

theorem filterMap_plain {bs : List Nat} (h : ∀ b ∈ bs, b < 256) :
    (bs.map hexByteChars).filterMap parse_hex_byte = bs := by
  induction bs with
  | nil => rfl
  | cons b rest ih =>
      rw [List.map_cons, List.filterMap_cons]
      rw [parse_hex_byte_plain b (h b (List.mem_cons_self _ _))]
      rw [ih (fun x hx => h x (List.mem_cons_of_mem _ hx))]

theorem filterMap_quoted {bs : List Nat} (h : ∀ b ∈ bs, b < 256) :
    (bs.map quotedHexItem).filterMap parse_hex_byte = bs := by
  induction bs with
  | nil => rfl
  | cons b rest ih =>
      rw [List.map_cons, List.filterMap_cons]
      rw [parse_hex_byte_quoted b (h b (List.mem_cons_self _ _))]
      rw [ih (fun x hx => h x (List.mem_cons_of_mem _ hx))]

theorem sepComma_mem : ∀ (items : List Str),
    (∀ t ∈ items, ∀ c ∈ t, c ∈ itemAlphabet) →
    ∀ c ∈ sepComma items, c ∈ itemAlphabet := by
  intro items
  induction items with
  | nil => intro _ c hc; cases hc
  | cons x rest ih =>
      intro hmem c hc
      cases rest with
      | nil => exact hmem x (List.mem_cons_self _ _) c (by simpa [sepComma] using hc)
      | cons y ys =>
          rw [show sepComma (x :: y :: ys) = x ++ ',' :: sepComma (y :: ys) from rfl] at hc
          rcases List.mem_append.mp hc with hc | hc
          · exact hmem x (List.mem_cons_self _ _) c hc
          · rcases List.mem_cons.mp hc with rfl | hc
            · decide
            · exact ih (fun t ht => hmem t (List.mem_cons_of_mem _ ht)) c hc

theorem sepSpace_mem : ∀ (items : List Str),
    (∀ t ∈ items, ∀ c ∈ t, c ∈ hexAlphabet) →
    ∀ c ∈ sepSpace items, c ∈ hexAlphabet ∨ c = ' ' := by
  intro items
  induction items with
  | nil => intro _ c hc; cases hc
  | cons x rest ih =>
      intro hmem c hc
      cases rest with
      | nil => exact Or.inl (hmem x (List.mem_cons_self _ _) c (by simpa [sepSpace] using hc))
      | cons y ys =>
          rw [show sepSpace (x :: y :: ys) = x ++ ' ' :: sepSpace (y :: ys) from rfl] at hc
          rcases List.mem_append.mp hc with hc | hc
          · exact Or.inl (hmem x (List.mem_cons_self _ _) c hc)
          · rcases List.mem_cons.mp hc with rfl | hc
            · exact Or.inr rfl
            · exact ih (fun t ht => hmem t (List.mem_cons_of_mem _ ht)) c hc

theorem commaItems_mem {bs : List Nat} (h : ∀ b ∈ bs, b < 256) :
    ∀ c ∈ commaItems bs, c ∈ itemAlphabet := by
  apply sepComma_mem
  intro t ht c hc
  rcases List.mem_map.mp ht with ⟨b, hb, rfl⟩
  exact quotedHexItem_mem b (h b hb) c hc

theorem hexRender_ne {bs : List Nat} (h : bs ≠ []) : hexRender bs ≠ [] := by
  cases bs with
  | nil => exact absurd rfl h
  | cons b rest => rw [hexRender_cons]; simp [hexByteChars]

theorem commaItems_ne {bs : List Nat} (h : bs ≠ []) : commaItems bs ≠ [] := by
  cases bs with
  | nil => exact absurd rfl h
  | cons b rest =>
      unfold commaItems
      rw [List.map_cons]
      cases hrest : rest.map quotedHexItem with
      | nil => simp [sepComma, quotedHexItem]
      | cons y ys =>
          rw [show sepComma (quotedHexItem b :: y :: ys)
              = quotedHexItem b ++ ',' :: sepComma (y :: ys) from rfl]
          simp [quotedHexItem]

theorem quotedHexItem_no_comma : ∀ b < 256, ∀ c ∈ quotedHexItem b, ¬ c = ',' := by decide

theorem contains_eq_false {l : Str} {c : Char} (h : c ∉ l) : l.contains c = false := by
  simp [List.contains, List.elem_eq_mem, h]

theorem contains_eq_true {l : Str} {c : Char} (h : c ∈ l) : l.contains c = true := by
  simp [List.contains, List.elem_eq_mem, h]

/-- C8: `parse_memory_contents` normalizes each of the four wire shapes
to the byte vector they encode — `bytes="<hex>"` as continuous hex,
`contents="…"` as continuous or space-separated hex, and
`contents=[…]`/`data=[…]` as comma-separated quoted `0xNN` items — and
an odd-length continuous hex string yields an error for either
continuous shape, never a byte vector. -/
theorem C8_memory_contents_shapes :
    (∀ bs : List Nat, bs ≠ [] → (∀ b ∈ bs, b < 256) →
      parse_memory_contents (bytesKey ++ (hexRender bs ++ ['"'])) = .ok bs)
    ∧ (∀ bs : List Nat, bs ≠ [] → (∀ b ∈ bs, b < 256) →
      parse_memory_contents (contentsQKey ++ (hexRender bs ++ ['"'])) = .ok bs)
    ∧ (∀ bs : List Nat, 2 ≤ bs.length → (∀ b ∈ bs, b < 256) →
      parse_memory_contents
        (contentsQKey ++ (sepSpace (bs.map hexByteChars) ++ ['"'])) = .ok bs)
    ∧ (∀ bs : List Nat, bs ≠ [] → (∀ b ∈ bs, b < 256) →
      parse_memory_contents (contentsBrKey ++ (commaItems bs ++ [']'])) = .ok bs)
    ∧ (∀ bs : List Nat, bs ≠ [] → (∀ b ∈ bs, b < 256) →
      parse_memory_contents (dataBrKey ++ (commaItems bs ++ [']'])) = .ok bs)
    ∧ (∀ h : Str, (∀ c ∈ h, isHexCh c = true) → h.length % 2 = 1 →
      (∀ bs, ¬ parse_memory_contents (bytesKey ++ (h ++ ['"'])) = .ok bs)
      ∧ (∀ bs, ¬ parse_memory_contents (contentsQKey ++ (h ++ ['"'])) = .ok bs)) := by
  refine ⟨?_, ?_, ?_, ?_, ?_, ?_⟩
  · intro bs hne hb
    have hhex : ∀ c ∈ hexRender bs, isHexCh c = true :=
      fun c hc => (hexAlphabet_props c (hexRender_mem hb c hc)).1
    unfold parse_memory_contents
    rw [@scanKey_hit Str hexQCap bytesKey (by decide) (hexRender bs ++ ['"'])
      (hexRender bs) (hexQCap_payload (hexRender_ne hne) hhex)]
    exact hex_str_to_bytes_hexRender hb
  · intro bs hne hb
    have hmemA : ∀ c ∈ hexRender bs, c ∈ hexAlphabet := hexRender_mem hb
    have hy : 'y' ∉ contentsQKey ++ (hexRender bs ++ ['"']) := by
      refine not_mem_app (by decide) (not_mem_app ?_ (by decide))
      intro hc
      exact (hexAlphabet_props _ (hmemA _ hc)).2.2.1 rfl
    have hq : ∀ c ∈ hexRender bs, ¬ c = '"' :=
      fun c hc => (hexAlphabet_props c (hmemA c hc)).2.1
    have hsp : ' ' ∉ hexRender bs := by
      intro hc
      have := hmemA ' ' hc
      exact absurd this (by decide)
    unfold parse_memory_contents
    rw [scanKey_absent hexQCap (show 'y' ∈ bytesKey by decide) hy]
    rw [show (hexRender bs ++ ['"'] : Str) = hexRender bs ++ '"' :: [] from rfl]
    rw [@scanKey_hit Str plainCap contentsQKey (by decide) (hexRender bs ++ '"' :: [])
      (hexRender bs) (plainCap_payload (hexRender_ne hne) hq [])]
    dsimp only
    rw [contains_eq_false hsp]
    rw [if_neg (by simp)]
    exact hex_str_to_bytes_hexRender hb
  · intro bs hlen hb
    have hitems : ∀ t ∈ bs.map hexByteChars, ∀ c ∈ t, c ∈ hexAlphabet := by
      intro t ht c hc
      rcases List.mem_map.mp ht with ⟨b, hbin, rfl⟩
      exact hexByteChars_mem b (hb b hbin) c hc
    have hspace : ∀ c ∈ sepSpace (bs.map hexByteChars), c ∈ hexAlphabet ∨ c = ' ' :=
      sepSpace_mem _ hitems
    obtain ⟨b1, b2, brest, rfl⟩ : ∃ b1 b2 brest, bs = b1 :: b2 :: brest := by
      cases bs with
      | nil => simp at hlen
      | cons b1 rest =>
          cases rest with
          | nil => simp at hlen
          | cons b2 brest => exact ⟨b1, b2, brest, rfl⟩
    have hsepne : sepSpace ((b1 :: b2 :: brest).map hexByteChars) ≠ [] := by
      rw [List.map_cons, List.map_cons]
      rw [show sepSpace (hexByteChars b1 :: hexByteChars b2 :: brest.map hexByteChars)
          = hexByteChars b1 ++ ' ' :: sepSpace (hexByteChars b2 :: brest.map hexByteChars)
          from rfl]
      simp
    have hy : 'y' ∉ contentsQKey
        ++ (sepSpace ((b1 :: b2 :: brest).map hexByteChars) ++ ['"']) := by
      refine not_mem_app (by decide) (not_mem_app ?_ (by decide))
      intro hc
      rcases hspace _ hc with hmem | heq
      · exact (hexAlphabet_props _ hmem).2.2.1 rfl
      · cases heq
    have hq : ∀ c ∈ sepSpace ((b1 :: b2 :: brest).map hexByteChars), ¬ c = '"' := by
      intro c hc
      rcases hspace c hc with hmem | rfl
      · exact (hexAlphabet_props c hmem).2.1
      · decide
    have hspin : ' ' ∈ sepSpace ((b1 :: b2 :: brest).map hexByteChars) := by
      rw [List.map_cons, List.map_cons]
      rw [show sepSpace (hexByteChars b1 :: hexByteChars b2 :: brest.map hexByteChars)
          = hexByteChars b1 ++ ' ' :: sepSpace (hexByteChars b2 :: brest.map hexByteChars)
          from rfl]
      exact List.mem_append_right _ (List.mem_cons_self _ _)
    unfold parse_memory_contents
    rw [scanKey_absent hexQCap (show 'y' ∈ bytesKey by decide) hy]
    rw [show (sepSpace ((b1 :: b2 :: brest).map hexByteChars) ++ ['"'] : Str)
        = sepSpace ((b1 :: b2 :: brest).map hexByteChars) ++ '"' :: [] from rfl]
    rw [@scanKey_hit Str plainCap contentsQKey (by decide)
      (sepSpace ((b1 :: b2 :: brest).map hexByteChars) ++ '"' :: [])
      (sepSpace ((b1 :: b2 :: brest).map hexByteChars))
      (plainCap_payload hsepne hq [])]
    dsimp only
    rw [contains_eq_true hspin]
    rw [if_pos rfl]
    unfold split_hex_bytes
    rw [splitWs_sepSpace _ (by simp) ?_]
    · rw [filterMap_plain hb]
    · intro t ht
      refine ⟨?_, ?_⟩
      · rcases List.mem_map.mp ht with ⟨b, _, rfl⟩
        simp [hexByteChars]
      · intro c hc
        exact (hexAlphabet_props c (hitems t ht c hc)).2.2.2.2.2.2
  · intro bs hne hb
    have hmemI : ∀ c ∈ commaItems bs, c ∈ itemAlphabet := commaItems_mem hb
    have hy : 'y' ∉ contentsBrKey ++ (commaItems bs ++ [']']) := by
      refine not_mem_app (by decide) (not_mem_app ?_ (by decide))
      intro hc
      exact (itemAlphabet_props _ (hmemI _ hc)).2.1 rfl
    have ho : 'o' ∉ commaItems bs ++ [']'] := by
      refine not_mem_app ?_ (by decide)
      intro hc
      exact (itemAlphabet_props _ (hmemI _ hc)).2.2 rfl
    have hbr : ∀ c ∈ commaItems bs, ¬ c = ']' :=
      fun c hc => (itemAlphabet_props c (hmemI c hc)).1
    unfold parse_memory_contents
    rw [scanKey_absent hexQCap (show 'y' ∈ bytesKey by decide) hy]
    rw [show contentsBrKey ++ (commaItems bs ++ [']'])
        = contentsBrKey ++ (commaItems bs ++ [']']) from rfl]
    rw [contentsQ_miss_bracket ho]
    rw [show (commaItems bs ++ [']'] : Str) = commaItems bs ++ ']' :: [] from rfl]
    rw [@scanKey_hit Str bracketCap contentsBrKey (by decide)
      (commaItems bs ++ ']' :: []) (commaItems bs)
      (bracketCap_payload (commaItems_ne hne) hbr [])]
    dsimp only
    unfold parse_hex_list
    unfold commaItems
    rw [splitCh_sepComma _ ?_ (by simp [hne])]
    · rw [filterMap_quoted hb]
    · intro t ht c hc
      rcases List.mem_map.mp ht with ⟨b, hbin, rfl⟩
      exact quotedHexItem_no_comma b (hb b hbin) c hc
  · intro bs hne hb
    have hmemI : ∀ c ∈ commaItems bs, c ∈ itemAlphabet := commaItems_mem hb
    have hy : 'y' ∉ dataBrKey ++ (commaItems bs ++ [']']) := by
      refine not_mem_app (by decide) (not_mem_app ?_ (by decide))
      intro hc
      exact (itemAlphabet_props _ (hmemI _ hc)).2.1 rfl
    have ho : 'o' ∉ dataBrKey ++ (commaItems bs ++ [']']) := by
      refine not_mem_app (by decide) (not_mem_app ?_ (by decide))
      intro hc
      exact (itemAlphabet_props _ (hmemI _ hc)).2.2 rfl
    have hbr : ∀ c ∈ commaItems bs, ¬ c = ']' :=
      fun c hc => (itemAlphabet_props c (hmemI c hc)).1
    unfold parse_memory_contents
    rw [scanKey_absent hexQCap (show 'y' ∈ bytesKey by decide) hy]
    rw [scanKey_absent plainCap (show 'o' ∈ contentsQKey by decide) ho]
    rw [scanKey_absent bracketCap (show 'o' ∈ contentsBrKey by decide) ho]
    rw [show (commaItems bs ++ [']'] : Str) = commaItems bs ++ ']' :: [] from rfl]
    rw [@scanKey_hit Str bracketCap dataBrKey (by decide)
      (commaItems bs ++ ']' :: []) (commaItems bs)
      (bracketCap_payload (commaItems_ne hne) hbr [])]
    dsimp only
    unfold parse_hex_list
    unfold commaItems
    rw [splitCh_sepComma _ ?_ (by simp [hne])]
    · rw [filterMap_quoted hb]
    · intro t ht c hc
      rcases List.mem_map.mp ht with ⟨b, hbin, rfl⟩
      exact quotedHexItem_no_comma b (hb b hbin) c hc
  · intro h hchars hodd
    have hne : h ≠ [] := by
      intro heq
      rw [heq] at hodd
      simp at hodd
    constructor
    · intro bs hc
      unfold parse_memory_contents at hc
      rw [@scanKey_hit Str hexQCap bytesKey (by decide) (h ++ ['"']) h
        (hexQCap_payload hne hchars)] at hc
      exact hex_str_to_bytes_odd hodd bs hc
    · intro bs hc
      have hy : 'y' ∉ contentsQKey ++ (h ++ ['"']) := by
        refine not_mem_app (by decide) (not_mem_app ?_ (by decide))
        intro hmem
        exact absurd (hchars 'y' hmem) (by decide)
      have hq : ∀ c ∈ h, ¬ c = '"' := by
        intro c hmem he
        have := hchars c hmem
        rw [he] at this
        exact absurd this (by decide)
      have hsp : ' ' ∉ h := by
        intro hmem
        exact absurd (hchars ' ' hmem) (by decide)
      unfold parse_memory_contents at hc
      rw [scanKey_absent hexQCap (show 'y' ∈ bytesKey by decide) hy] at hc
      rw [show (h ++ ['"'] : Str) = h ++ '"' :: [] from rfl] at hc
      rw [@scanKey_hit Str plainCap contentsQKey (by decide) (h ++ '"' :: []) h
        (plainCap_payload hne hq [])] at hc
      dsimp only at hc
      rw [contains_eq_false hsp] at hc
      rw [if_neg (by simp)] at hc
      exact hex_str_to_bytes_odd hodd bs hc

/-- Witness for C8 at the concrete payload `aa bb cc` (the repo's own
test vector) in several wire shapes, plus the odd-length `aab`. -/
theorem C8_witness :
    parse_memory_contents (bytesKey ++ (hexRender ([170, 187, 204]) ++ ['"']))
      = .ok ([170, 187, 204])
    ∧ parse_memory_contents (contentsQKey
        ++ (sepSpace (([170, 187, 204] : List Nat).map hexByteChars) ++ ['"']))
      = .ok ([170, 187, 204])
    ∧ parse_memory_contents (contentsBrKey ++ (commaItems ([170, 187]) ++ [']']))
      = .ok ([170, 187])
    ∧ parse_memory_contents (dataBrKey ++ (commaItems ([1, 2]) ++ [']'])) = .ok ([1, 2])
    ∧ ¬ parse_memory_contents (bytesKey ++ ((("aab").toList) ++ ['"'])) = .ok [] :=
  ⟨C8_memory_contents_shapes.1 _ (by decide) (by decide),
   C8_memory_contents_shapes.2.2.1 _ (by decide) (by decide),
   C8_memory_contents_shapes.2.2.2.1 _ (by decide) (by decide),
   C8_memory_contents_shapes.2.2.2.2.1 _ (by decide) (by decide),
   (C8_memory_contents_shapes.2.2.2.2.2 (("aab").toList) (by decide) (by decide)).1 []⟩

theorem guess_endian_ne : ∀ (a : Str) (e : Endian),
    guess_endian_from_arch a = some e → ¬ e = .unknown := by
  intro a e h
  unfold guess_endian_from_arch at h
  dsimp only at h
  split_ifs at h <;> (injection h with h1; rw [← h1]; decide)

theorem ensure_endian_ne (o : MiOracle) (st : SessionSt) :
    ¬ (ensure_endian o st).endian = .unknown := by
  unfold ensure_endian
  by_cases h0 : st.endian = .unknown
  · rw [if_neg (by simp [h0])]
    have hfb : ¬ (match st.arch with
        | some arch =>
            match guess_endian_from_arch arch with
            | some g => { st with endian := g }
            | none => { st with endian := Endian.little }
        | none => { st with endian := Endian.little } : SessionSt).endian = .unknown := by
      cases st.arch with
      | none => simp
      | some arch =>
          cases hg : guess_endian_from_arch arch with
          | none => simp [hg]
          | some g =>
              simp only [hg]
              exact guess_endian_ne arch g hg
    cases exec_command o (("-gdb-show endian").toList) with
    | none => exact hfb
    | some r =>
        dsimp only
        cases parse_value_field r.result with
        | none => exact hfb
        | some val =>
            dsimp only
            by_cases hp : parse_endian val = .unknown
            · rw [if_neg (by simp [hp])]
              exact hfb
            · rw [if_pos (by simp [hp])]
              exact hp
  · rw [if_pos (by simp [h0])]
    exact h0

theorem dumpRequest_spec (o : MiOracle) (expr : Str) (ov : Option Nat) :
    (dumpRequest o expr ov).2 ≤ 512
    ∧ ∀ n, (dumpRequest o expr ov).1 = some n →
        (dumpRequest o expr ov).2 = 512 ∧ 512 < n := by
  have key : ∀ (r1 : Nat),
      (if MAX_DUMP_BYTES < r1 then ((some r1 : Option Nat), MAX_DUMP_BYTES)
        else ((none : Option Nat), r1)).2 ≤ 512
      ∧ ∀ n, (if MAX_DUMP_BYTES < r1 then ((some r1 : Option Nat), MAX_DUMP_BYTES)
          else ((none : Option Nat), r1)).1 = some n →
        (if MAX_DUMP_BYTES < r1 then ((some r1 : Option Nat), MAX_DUMP_BYTES)
          else ((none : Option Nat), r1)).2 = 512 ∧ 512 < n := by
    intro r1
    by_cases h : MAX_DUMP_BYTES < r1
    · rw [if_pos h]
      refine ⟨Nat.le.refl, ?_⟩
      intro n hn
      injection hn with hn
      subst hn
      exact ⟨rfl, by simpa [MAX_DUMP_BYTES] using h⟩
    · rw [if_neg h]
      refine ⟨?_, ?_⟩
      · show r1 ≤ 512
        simp [MAX_DUMP_BYTES] at h
        omega
      · intro n hn
        simp at hn
  exact key _

/-- Counterexample for C1: a debugger reply carrying five payload bytes
for a four-byte read makes `memory_dump` return a dump with
`len(bytes) = 5 > 4 = requested`; the code never checks the reply
length against the requested count. -/
theorem C1_counterexample :
    ((memory_dump c1BadOracle c1St (("p").toList) (some 4)).2.map
      (fun d => decide (d.bytes.length ≤ d.requested))) = some false := by
  rfl

/-- C1 amended: for every debugger behaviour whose successful sized
reads return at most the requested byte count (as gdb's
`-data-read-memory-bytes` does), every dump returned by `memory_dump`
satisfies `len(bytes) ≤ requested ≤ 512`, `truncated_from = Some n`
implies `n > len(bytes)`, and the endian is never `Unknown`; the
`requested ≤ 512` cap and the resolved endian hold for every behaviour,
while `len(bytes) ≤ requested` needs the reply-length condition. -/
theorem C1_memory_dump_invariants :
    ∀ (o : MiOracle) (st : SessionSt) (expr : Str) (ov : Option Nat) (st2 : SessionSt)
      (d : MemoryDump),
      (∀ a k r, read_memory_bytes o a k = some r → r.2.length ≤ k) →
      memory_dump o st expr ov = (st2, some d) →
      d.bytes.length ≤ d.requested ∧ d.requested ≤ 512
      ∧ (∀ n, d.truncated_from = some n → d.bytes.length < n)
      ∧ ¬ d.endian = .unknown := by
  intro o st expr ov st2 d hR h
  unfold memory_dump at h
  cases haddr : eval_address_of_expr o expr with
  | none =>
      rw [haddr] at h
      injection h with _ h2
      cases h2
  | some addrU64 =>
      rw [haddr] at h
      dsimp only at h
      cases hread : read_memory_bytes o ((("0x").toList) ++ natToHex addrU64)
          (dumpRequest o expr ov).2 with
      | none =>
          rw [hread] at h
          injection h with _ h2
          cases h2
      | some pr =>
          obtain ⟨addr, bytes⟩ := pr
          rw [hread] at h
          dsimp only at h
          injection h with h1 h2
          injection h2 with h2
          subst h2
          have hb := hR _ _ _ hread
          have hq := dumpRequest_spec o expr ov
          refine ⟨hb, hq.1, ?_, ?_⟩
          · intro n hn
            have hs := hq.2 n hn
            have h512 := hs.1
            have hlt := hs.2
            simp only [List.length_nil] at *
            omega
          · show ¬ (if (ensure_endian o (ensure_word_size o st)).endian = Endian.unknown
                then _ else _ : SessionSt).endian = Endian.unknown
            rw [if_neg (ensure_endian_ne o (ensure_word_size o st))]
            exact ensure_endian_ne o (ensure_word_size o st)

theorem c1Good_read : ∀ (a : Str) (k : Nat),
    read_memory_bytes c1GoodOracle a k = some ((("0x1000").toList), []) := by
  intro a k
  have hpre : isPre (("-data-read-memory-bytes ").toList)
      ((("-data-read-memory-bytes ").toList) ++ a ++ ([' ']) ++ natToDec k) = true := by
    rw [List.append_assoc, List.append_assoc]
    exact isPre_append _ _
  unfold read_memory_bytes exec_command
  have hexec : c1GoodOracle.exec
      ((("-data-read-memory-bytes ").toList) ++ a ++ ([' ']) ++ natToDec k)
      = some ((("^done,addr=\"0x1000\",contents=[ ]").toList), []) := by
    simp only [c1GoodOracle]
    rw [hpre]
    simp
  rw [hexec]
  rfl

theorem c1Good_read_bound : ∀ (a : Str) (k : Nat) (r : Str × List Nat),
    read_memory_bytes c1GoodOracle a k = some r → r.2.length ≤ k := by
  intro a k r h
  rw [c1Good_read a k] at h
  injection h with h1
  rw [← h1]
  exact Nat.zero_le k

/-- Witness for C1: with the bounded-reply oracle, the dump of `p`
satisfies all four amended invariants. -/
theorem C1_witness :
    c1GoodDump.bytes.length ≤ c1GoodDump.requested ∧ c1GoodDump.requested ≤ 512
    ∧ (∀ n, c1GoodDump.truncated_from = some n → c1GoodDump.bytes.length < n)
    ∧ ¬ c1GoodDump.endian = .unknown :=
  C1_memory_dump_invariants c1GoodOracle c1St (("p").toList) none c1GoodSt c1GoodDump
    c1Good_read_bound (by rfl)

end Memviz
